import Mathlib

/-!
Shallow embedding of `logwrapper/logwrap.c`: the `parent` output pump
(read / line-split / flush loop), the wait-status translation, and the
control flow of `android_fork_execvp` (lock, pseudo-terminal setup,
signal mask, fork, cleanup), together with proofs about the claims of
the specification.

Bytes are modelled as `Nat` (13 = carriage return, 10 = newline, 0 = NUL);
the fixed C buffer `char buffer[4096]` is a `List Nat` of length 4096.
-/

namespace Logwrap

/-- Fixed capacity of the parent read buffer (`char buffer[4096]`). -/
def BUFSZ : Nat := 4096

/-- POSIX `WIFEXITED`: the low seven bits of the raw wait status are zero. -/
def WIFEXITED (s : Nat) : Bool := s % 128 = 0

/-- POSIX `WEXITSTATUS`: bits 8..15 of the raw wait status. -/
def WEXITSTATUS (s : Nat) : Nat := s / 256 % 256

/-- POSIX `WTERMSIG`: the low seven bits of the raw wait status. -/
def WTERMSIG (s : Nat) : Nat := s % 128

/-- POSIX `WIFSIGNALED`: the terminating-signal field is in 1..126. -/
def WIFSIGNALED (s : Nat) : Bool := 1 ≤ s % 128 && s % 128 ≤ 126

/-- POSIX `WIFSTOPPED`: the low byte of the raw wait status is 0x7f. -/
def WIFSTOPPED (s : Nat) : Bool := s % 256 = 127

/-- POSIX `WSTOPSIG`: bits 8..15 of the raw wait status. -/
def WSTOPSIG (s : Nat) : Nat := s / 256 % 256

/-- Linux errno value `ECHILD`. -/
def ECHILD : Nat := 10

/-- Status translation used when no caller status slot is supplied
(logwrap.c lines 129-132): exit code on normal exit, `-ECHILD` otherwise. -/
def translateStatus (s : Nat) : Int :=
  if WIFEXITED s then (WEXITSTATUS s : Int) else -(ECHILD : Int)

/-- Which emit path produced a log line: a newline-terminated segment,
a forced flush of a full buffer, or the final flush after reaping. -/
inductive LineKind
  | newline
  | forced
  | final
deriving DecidableEq, Repr

/-- An emitted log line: its bytes and the path that emitted it. -/
abbrev EmitLine := List Nat × LineKind

/-- Bytes of the C string starting at offset `a` of the buffer:
`ALOG(..., "%s", &buffer[a])` reads up to (not including) the first NUL. -/
def cString (buf : List Nat) (a : Nat) : List Nat :=
  (buf.drop a).takeWhile (fun c => c != 0)

/-- The bytes of `buf` at positions `[i, j)`. -/
def slice (buf : List Nat) (i j : Nat) : List Nat := (buf.drop i).take (j - i)

/-- Overwrite `buf` starting at offset `off` with `data`
(the effect of `read(fd, &buffer[off], n)` depositing `data`). -/
def writeAt (buf : List Nat) (off : Nat) (data : List Nat) : List Nat :=
  buf.take off ++ data ++ buf.drop (off + data.length)

/-- `memmove(buffer, &buffer[a], len)`: copy the bytes at `[a, a+len)`
to the front of the buffer; bytes past `len` keep their old values. -/
def memmoveFront (buf : List Nat) (a len : Nat) : List Nat :=
  (buf.drop a).take len ++ buf.drop len

/-- Body of the scan loop of logwrap.c lines 83-92, iterated at most
`fuel` times (the caller passes `sz - i`, which bounds the remaining
iterations of `for (b = 0; b < sz; b++)`): rewrite `\r` to NUL, and at
each `\n` rewrite it to NUL, emit the C string at offset `a` (when
`logwrap` is set) and advance `a` past it. -/
def scanFuel (logwrap : Bool) : Nat → List Nat → Nat → Nat → Nat → List EmitLine →
    List Nat × Nat × List EmitLine
  | 0, buf, a, _, _, acc => (buf, a, acc)
  | fuel + 1, buf, a, i, sz, acc =>
    if i < sz then
      let c := buf.getD i 0
      if c = 13 then
        scanFuel logwrap fuel (buf.set i 0) a (i + 1) sz acc
      else if c = 10 then
        let buf2 := buf.set i 0
        scanFuel logwrap fuel buf2 (i + 1) (i + 1) sz
          (acc ++ if logwrap then [(cString buf2 a, LineKind.newline)] else [])
      else
        scanFuel logwrap fuel buf a (i + 1) sz acc
    else
      (buf, a, acc)

/-- The scan loop of logwrap.c lines 83-92 from position `i`: the loop
runs while `i < sz`, so `sz - i` iterations remain.  Returns the
rewritten buffer, the final `a`, and the emitted lines. -/
def scanFrom (logwrap : Bool) (buf : List Nat) (a i sz : Nat)
    (acc : List EmitLine) : List Nat × Nat × List EmitLine :=
  scanFuel logwrap (sz - i) buf a i sz acc

/-- State of the line buffer between pump cycles: buffer contents,
`a` (start of unprocessed data) and `b` (end of unprocessed data). -/
structure PumpState where
  buf : List Nat
  a : Nat
  b : Nat
deriving DecidableEq, Repr

/-- Result of one `read` call: a chunk of bytes, or a failure (-1). -/
inductive ReadResult
  | ok (data : List Nat)
  | err
deriving DecidableEq, Repr

/-- The post-read processing of one POLLIN cycle (logwrap.c lines 81-108):
scan the buffer, then either force-flush a full terminator-less buffer,
compact a leftover fragment to the front, or reset both cursors. -/
def processScan (logwrap : Bool) (buf : List Nat) (a sz : Nat) :
    PumpState × List EmitLine :=
  let r := scanFrom logwrap buf a 0 sz []
  let buf2 := r.1
  let a2 := r.2.1
  let lines := r.2.2
  if a2 = 0 ∧ sz = BUFSZ - 1 then
    let buf3 := buf2.set (BUFSZ - 1) 0
    (⟨buf3, a2, 0⟩, lines ++ if logwrap then [(cString buf3 a2, LineKind.forced)] else [])
  else if a2 ≠ sz then
    (⟨memmoveFront buf2 a2 (sz - a2), 0, sz - a2⟩, lines)
  else
    (⟨buf2, 0, 0⟩, lines)

/-- One POLLIN cycle (logwrap.c lines 79-108): `read` deposits at most
`sizeof(buffer) - 1 - b` bytes at offset `b` (a failed read deposits
nothing and contributes -1), then `sz += b` and the scan runs. -/
def pumpCycle (logwrap : Bool) (st : PumpState) (rr : ReadResult) :
    PumpState × List EmitLine :=
  match rr with
  | .err => processScan logwrap st.buf st.a (((-1 : Int) + (st.b : Int)).toNat)
  | .ok data =>
    let chunk := data.take (BUFSZ - 1 - st.b)
    processScan logwrap (writeAt st.buf st.b chunk) st.a (st.b + chunk.length)

/-- Result of the `waitpid(pid, &status, WNOHANG)` call on POLLHUP. -/
inductive ReapResult
  | failed (e : Nat)
  | notYet
  | reaped (status : Nat)
deriving DecidableEq, Repr

/-- One `poll` wakeup: `readEv` is present when POLLIN was set,
`hupEv` when POLLHUP was set. -/
structure PollEvent where
  readEv : Option ReadResult
  hupEv : Option ReapResult
deriving DecidableEq, Repr

/-- How the pump loop ended: the child was reaped with a raw status,
or `waitpid` failed with an errno. -/
inductive PumpOutcome
  | reaped (status : Nat)
  | waitFailed (e : Nat)
deriving DecidableEq, Repr

/-- The POLLIN handling of one wakeup: run a read cycle when POLLIN was
set, otherwise leave the state alone and emit nothing. -/
def readStep (logwrap : Bool) (st : PumpState) (ev : PollEvent) : PumpState × List EmitLine :=
  match ev.readEv with
  | some rr => pumpCycle logwrap st rr
  | none => (st, [])

/-- The `while (!found_child)` loop of `parent` (logwrap.c lines 71-124),
driven by a list of poll wakeups.  `none` means the supplied wakeups ran
out before the child was reaped (the real loop would still be blocked). -/
def pumpLoop (logwrap : Bool) : PumpState → List EmitLine → List PollEvent →
    Option (PumpState × List EmitLine × PumpOutcome)
  | _, _, [] => none
  | st, acc, ev :: rest =>
    let step := readStep logwrap st ev
    let st1 := step.1
    let acc1 := acc ++ step.2
    match ev.hupEv with
    | some (.failed e) => some (st1, acc1, .waitFailed e)
    | some (.reaped s) => some (st1, acc1, .reaped s)
    | some .notYet => pumpLoop logwrap st1 acc1 rest
    | none => pumpLoop logwrap st1 acc1 rest

/-- A summary record pushed to the log sink after the child ended
(logwrap.c lines 141-152). -/
inductive SummaryEv
  | exited (code : Nat)
  | signaled (sig : Nat)
  | stopped (sig : Nat)
deriving DecidableEq, Repr

/-- The summary records emitted for raw status `s`
(nonzero exit code, terminating signal, or stopping signal). -/
def summaryFor (s : Nat) : List SummaryEv :=
  if WIFEXITED s then
    if WEXITSTATUS s ≠ 0 then [.exited (WEXITSTATUS s)] else []
  else if WIFSIGNALED s then [.signaled (WTERMSIG s)]
  else if WIFSTOPPED s then [.stopped (WSTOPSIG s)]
  else []

/-- What `parent` produced: child-tagged lines, wrapper-tagged summary
records, the returned `rc`, and the value stored into `*chld_sts`. -/
structure ParentResult where
  lines : List EmitLine
  summaries : List SummaryEv
  rc : Int
  rawSlot : Option Nat
deriving DecidableEq, Repr

/-- The tail of `parent` (logwrap.c lines 126-157): on a `waitpid`
failure return the errno with no flush; otherwise store or translate the
status, flush any leftover fragment, and emit the summary records. -/
def parentFinish (logwrap hasSlot : Bool) (st : PumpState) (acc : List EmitLine) :
    PumpOutcome → ParentResult
  | .waitFailed e => ⟨acc, [], (e : Int), none⟩
  | .reaped s =>
    let rc : Int := if hasSlot then 0 else translateStatus s
    let slot : Option Nat := if hasSlot then some s else none
    if logwrap then
      let fl := if st.a ≠ st.b then [(cString (st.buf.set st.b 0) st.a, LineKind.final)] else []
      ⟨acc ++ fl, summaryFor s, rc, slot⟩
    else
      ⟨acc, [], rc, slot⟩

/-- Initial pump state: `a = b = 0` and a fresh 4096-byte buffer. -/
def initPumpState : PumpState := ⟨List.replicate BUFSZ 0, 0, 0⟩

/-- The whole of `parent`: run the pump loop from the initial state and
apply the finishing code to its outcome. -/
def runPump (logwrap hasSlot : Bool) (evs : List PollEvent) : Option ParentResult :=
  (pumpLoop logwrap initPumpState [] evs).map fun r =>
    parentFinish logwrap hasSlot r.1 r.2.1 r.2.2

/-- Tag of a log-sink record: "logwrapper" diagnostics vs the child's
base-name tag. -/
inductive Tag
  | wrapper
  | child
deriving DecidableEq, Repr

/-- Observable actions of `android_fork_execvp` in program order. -/
inductive Ev
  | lockAcq | lockRel
  | openMaster | closeMaster | openSlave | closeSlave
  | sigBlock | sigRestore | ignInstall | ignRestore
  | forked | forkFail
  | pumpStart | pumpEnd
  | log (t : Tag)
deriving DecidableEq, Repr

/-- Which of the fallible setup steps succeed in a given run: the
`pthread_mutex_lock` return code, and success of the `/dev/ptmx` open,
grantpt/unlockpt/ptsname, the slave open, and `fork`. -/
structure SetupEnv where
  lockRc : Nat
  masterOk : Bool
  grantOk : Bool
  slaveOk : Bool
  forkOk : Bool
deriving DecidableEq, Repr

/-- The child branch (logwrap.c lines 223-233): unlock, restore the
signal mask, close the master, dup the slave onto stdout/stderr and
close it, then exec. -/
def childBranchTrace : List Ev := [.lockRel, .sigRestore, .closeMaster, .closeSlave]

/-- Control flow of `android_fork_execvp` (logwrap.c lines 172-261) in
the parent process: each failing setup step takes its `goto` cleanup
path; on success the pump runs and the cleanup falls through lines
248-258.  Returns the function result, the event trace, and the pump's
result (`none` overall if the pump never finished). -/
def androidForkExecvp (env : SetupEnv) (ignoreIntQuit logwrap hasSlot : Bool)
    (evs : List PollEvent) : Option (Int × List Ev × Option ParentResult) :=
  if env.lockRc ≠ 0 then
    some ((env.lockRc : Int), [.log .wrapper], none)
  else if !env.masterOk then
    some (-1, [.lockAcq, .log .wrapper, .lockRel], none)
  else if !env.grantOk then
    some (-1, [.lockAcq, .openMaster, .log .wrapper, .closeMaster, .lockRel], none)
  else if !env.slaveOk then
    some (-1, [.lockAcq, .openMaster, .log .wrapper, .closeMaster, .lockRel], none)
  else if !env.forkOk then
    some (-1, [.lockAcq, .openMaster, .openSlave, .sigBlock, .forkFail, .closeSlave,
      .log .wrapper, .sigRestore, .closeMaster, .lockRel], none)
  else
    (runPump logwrap hasSlot evs).map fun r =>
      (r.rc,
        [.lockAcq, .openMaster, .openSlave, .sigBlock, .forked, .closeSlave]
          ++ (if ignoreIntQuit then [.ignInstall] else [])
          ++ [.pumpStart]
          ++ r.lines.map (fun _ => Ev.log .child)
          ++ r.summaries.map (fun _ => Ev.log .wrapper)
          ++ [.pumpEnd]
          ++ (if ignoreIntQuit then [.ignRestore] else [])
          ++ [.sigRestore, .closeMaster, .lockRel],
        some r)

/-- The serialization lock is held after the first `n` events of `tr`. -/
def lockHeldAt (tr : List Ev) (n : Nat) : Prop :=
  (tr.take n).count .lockRel < (tr.take n).count .lockAcq

/-- The pump loop is running after the first `n` events of `tr`. -/
def pumpOpenAt (tr : List Ev) (n : Nat) : Prop :=
  (tr.take n).count .pumpEnd < (tr.take n).count .pumpStart

/-- Reinsert each stripped terminator: a newline-path line gets its
newline back; forced and final flush lines had no terminator. -/
def reconstruct (ls : List EmitLine) : List Nat :=
  ls.foldr (fun l r => l.1 ++ match l.2 with | .newline => 10 :: r | _ => r) []

/-- The bytes a poll wakeup offers to `read`. -/
def chunkOf (ev : PollEvent) : List Nat :=
  match ev.readEv with
  | some (.ok data) => data
  | _ => []

/-- All bytes offered by a wakeup sequence, in order. -/
def chunksOf (evs : List PollEvent) : List Nat := (evs.map chunkOf).flatten

/-- Every offered chunk fits in the space `read` is given
(`sizeof(buffer) - 1 - b`), so no offered byte is left undelivered. -/
def fits : PumpState → List PollEvent → Bool
  | _, [] => true
  | st, ev :: rest =>
    (match ev.readEv with
      | some (.ok data) => data.length ≤ BUFSZ - 1 - st.b
      | _ => true)
    && fits (readStep true st ev).1 rest

/-- The pump loop driven by these wakeups ends with a successful reap. -/
def endsReaped (evs : List PollEvent) : Bool :=
  match pumpLoop true initPumpState [] evs with
  | some (_, _, PumpOutcome.reaped _) => true
  | _ => false

/-- A byte stream is clean when it contains no NUL and no carriage
return; the amended round-trip property quantifies over these. -/
def cleanByte (c : Nat) : Bool := c != 0 && c != 13

/-- Every wakeup offers a successful read of clean bytes. -/
def cleanEvs (evs : List PollEvent) : Bool :=
  evs.all fun ev => match ev.readEv with
    | some (.ok data) => data.all cleanByte
    | some .err => false
    | none => true

/-- A wakeup that does not end the pump loop: no POLLHUP, or a reap
that found no status yet. -/
def nonTerminal (ev : PollEvent) : Bool :=
  match ev.hupEv with
  | none => true
  | some .notYet => true
  | some (.failed _) => false
  | some (.reaped _) => false

/-- Structural invariant of the pump state between cycles:
`a = 0`, `b ≤ 4094`, and the buffer keeps its 4096-byte capacity. -/
def BufInv (st : PumpState) : Prop :=
  st.a = 0 ∧ st.b ≤ BUFSZ - 2 ∧ st.buf.length = BUFSZ

/-- The leftover fragment holds no newline, NUL, or carriage return. -/
def FragClean (st : PumpState) : Prop :=
  ∀ x ∈ slice st.buf 0 st.b, x ≠ 10 ∧ x ≠ 0 ∧ x ≠ 13

instance (st : PumpState) : Decidable (BufInv st) := by
  unfold BufInv; infer_instance

instance (st : PumpState) : Decidable (FragClean st) := by
  unfold FragClean; infer_instance

instance (tr : List Ev) (n : Nat) : Decidable (lockHeldAt tr n) := by
  unfold lockHeldAt; infer_instance

instance (tr : List Ev) (n : Nat) : Decidable (pumpOpenAt tr n) := by
  unfold pumpOpenAt; infer_instance

/-! ### Lemmas about the byte-buffer primitives -/

theorem takeWhile_append_false {α : Type} {q : α → Bool} (l1 l2 : List α)
    (h : ∀ x ∈ l1, q x = true) (c : α) (hc : q c = false) :
    (l1 ++ c :: l2).takeWhile q = l1 := by
  induction l1 with
  | nil => simp [List.takeWhile_cons, hc]
  | cons x xs ih =>
    have hx : q x = true := h x (List.mem_cons_self x xs)
    have ih2 := ih fun y hy => h y (List.mem_cons_of_mem x hy)
    simp [List.takeWhile_cons, hx, ih2]

theorem slice_length (buf : List Nat) (i j : Nat) (hj : j ≤ buf.length) :
    (slice buf i j).length = j - i := by
  simp only [slice, List.length_take, List.length_drop]
  omega

theorem slice_nil (buf : List Nat) (i j : Nat) (hij : j ≤ i) : slice buf i j = [] := by
  simp [slice, Nat.sub_eq_zero_of_le hij]

theorem slice_length_le (buf : List Nat) (i j : Nat) (h : k < (slice buf i j).length) :
    i + k < buf.length ∧ k < j - i := by
  simp only [slice, List.length_take, List.length_drop] at h
  omega

theorem getElem_slice (buf : List Nat) (i j k : Nat)
    (h : k < (slice buf i j).length) (h2 : i + k < buf.length) :
    (slice buf i j)[k] = buf[i + k] := by
  simp only [slice] at h ⊢
  rw [List.getElem_take, List.getElem_drop]

theorem getD_slice (buf : List Nat) (i j k : Nat) (hk : k < j - i) (hj : j ≤ buf.length) :
    (slice buf i j).getD k 0 = buf.getD (i + k) 0 := by
  have h1 : k < (slice buf i j).length := by rw [slice_length buf i j hj]; omega
  rw [List.getD_eq_getElem _ _ h1, List.getD_eq_getElem _ _ (by omega)]
  exact getElem_slice buf i j k h1 (by omega)

theorem getD_mem_slice (buf : List Nat) (i j k : Nat) (hik : i ≤ k) (hkj : k < j)
    (hj : j ≤ buf.length) : buf.getD k 0 ∈ slice buf i j := by
  have h1 : k - i < (slice buf i j).length := by rw [slice_length buf i j hj]; omega
  rw [List.mem_iff_getElem]
  refine ⟨k - i, h1, ?_⟩
  rw [getElem_slice buf i j (k - i) h1 (by omega), List.getD_eq_getElem _ _ (by omega : k < buf.length)]
  congr 1
  omega

theorem mem_slice_exists (buf : List Nat) (i j : Nat) (x : Nat) (hj : j ≤ buf.length)
    (hx : x ∈ slice buf i j) : ∃ k, i ≤ k ∧ k < j ∧ buf.getD k 0 = x := by
  rw [List.mem_iff_getElem] at hx
  obtain ⟨k, hk, hkx⟩ := hx
  have hlen : (slice buf i j).length = j - i := slice_length buf i j hj
  refine ⟨i + k, by omega, by omega, ?_⟩
  rw [List.getD_eq_getElem _ _ (by omega)]
  rw [getElem_slice buf i j k hk (by omega)] at hkx
  exact hkx

theorem slice_append (buf : List Nat) (i j k : Nat) (hij : i ≤ j) (hjk : j ≤ k) :
    slice buf i k = slice buf i j ++ slice buf j k := by
  simp only [slice]
  have h1 : k - i = (j - i) + (k - j) := by omega
  rw [h1, List.take_add]
  congr 1
  rw [List.drop_drop]
  congr 2
  omega

theorem slice_singleton (buf : List Nat) (i : Nat) (hi : i < buf.length) :
    slice buf i (i + 1) = [buf.getD i 0] := by
  apply List.ext_getElem
  · rw [slice_length buf i (i + 1) (by omega)]; simp
  · intro n h1 h2
    have hn : n = 0 := by
      rw [slice_length buf i (i + 1) (by omega)] at h1; omega
    subst hn
    rw [getElem_slice buf i (i + 1) 0 h1 (by omega)]
    rw [List.getD_eq_getElem _ _ hi]
    simp

theorem slice_set_outside (buf : List Nat) (k v i j : Nat) (h : k < i ∨ j ≤ k) :
    slice (buf.set k v) i j = slice buf i j := by
  apply List.ext_getElem
  · simp [slice, List.length_take, List.length_drop, List.length_set]
  · intro n h1 h2
    rw [getElem_slice _ i j n h1 (slice_length_le _ i j h1).1,
      getElem_slice _ i j n h2 (slice_length_le _ i j h2).1]
    rw [List.getElem_set]
    have hn := slice_length_le (buf.set k v) i j h1
    have : ¬ k = i + n := by omega
    simp [this]

theorem cString_eq_slice (buf : List Nat) (a p : Nat) (hap : a ≤ p) (hp : p < buf.length)
    (hnz : ∀ x ∈ slice buf a p, x ≠ 0) (h0 : buf.getD p 0 = 0) :
    cString buf a = slice buf a p := by
  have hdrop : buf.drop a = slice buf a p ++ buf.getD p 0 :: buf.drop (p + 1) := by
    have h1 : buf.drop a = (buf.drop a).take (p - a) ++ (buf.drop a).drop (p - a) :=
      (List.take_append_drop ..).symm
    have h2 : (buf.drop a).drop (p - a) = buf.drop p := by
      rw [List.drop_drop]; congr 1; omega
    have h3 : buf.drop p = buf[p] :: buf.drop (p + 1) := List.drop_eq_getElem_cons hp
    rw [List.getD_eq_getElem _ _ hp]
    rw [h1, h2, h3]; rfl
  rw [cString, hdrop]
  apply takeWhile_append_false
  · intro x hx
    have := hnz x hx
    simpa using this
  · rw [h0]; rfl

theorem writeAt_length (buf : List Nat) (off : Nat) (data : List Nat)
    (h : off + data.length ≤ buf.length) : (writeAt buf off data).length = buf.length := by
  simp only [writeAt, List.length_append, List.length_take, List.length_drop]
  omega

theorem slice_writeAt_front (buf : List Nat) (off : Nat) (data : List Nat)
    (h : off + data.length ≤ buf.length) :
    slice (writeAt buf off data) 0 (off + data.length) = slice buf 0 off ++ data := by
  have h2 : (buf.take off ++ data).length = off + data.length := by simp; omega
  simp only [slice, writeAt, List.drop_zero, Nat.sub_zero]
  rw [List.take_append_eq_append_take, h2, Nat.sub_self, List.take_zero, List.append_nil,
    List.take_of_length_le (le_of_eq h2)]

theorem slice_writeAt_left (buf : List Nat) (off : Nat) (data : List Nat) (j : Nat)
    (hj : j ≤ off) (h : off ≤ buf.length) :
    slice (writeAt buf off data) 0 j = slice buf 0 j := by
  have h1 : (buf.take off).length = off := by simp; omega
  have h2 : (buf.take off ++ data).length = off + data.length := by simp; omega
  simp only [slice, writeAt, List.drop_zero, Nat.sub_zero]
  rw [List.take_append_eq_append_take, h2, Nat.sub_eq_zero_of_le (by omega), List.take_zero,
    List.append_nil, List.take_append_eq_append_take, h1, Nat.sub_eq_zero_of_le hj,
    List.take_zero, List.append_nil, List.take_take]
  congr 1
  omega

theorem memmoveFront_length (buf : List Nat) (a len : Nat) (h : a + len ≤ buf.length) :
    (memmoveFront buf a len).length = buf.length := by
  simp only [memmoveFront, List.length_append, List.length_take, List.length_drop]
  omega

theorem slice_memmoveFront (buf : List Nat) (a len : Nat) (h : a + len ≤ buf.length) :
    slice (memmoveFront buf a len) 0 len = slice buf a (a + len) := by
  have h1 : ((buf.drop a).take len).length = len := by
    simp only [List.length_take, List.length_drop]; omega
  simp only [slice, memmoveFront, List.drop_zero, Nat.sub_zero]
  rw [List.take_append_eq_append_take, h1, Nat.sub_self, List.take_zero, List.append_nil,
    List.take_of_length_le (le_of_eq h1)]
  congr 1
  omega

theorem getD_set_self (buf : List Nat) (i v : Nat) (hi : i < buf.length) :
    (buf.set i v).getD i 0 = v := by
  rw [List.getD_eq_getElem _ _ (by simpa using hi), List.getElem_set]
  simp

theorem getD_set_ne (buf : List Nat) (k i v : Nat) (h : k ≠ i) :
    (buf.set k v).getD i 0 = buf.getD i 0 := by
  by_cases hi : i < buf.length
  · rw [List.getD_eq_getElem _ _ (by simpa using hi), List.getD_eq_getElem _ _ hi,
      List.getElem_set]
    simp [h]
  · rw [List.getD_eq_default _ _ (by simp; omega), List.getD_eq_default _ _ (by omega)]

theorem memmoveFront_zero (buf : List Nat) (len : Nat) : memmoveFront buf 0 len = buf := by
  simp [memmoveFront]

theorem writeAt_nil (buf : List Nat) (off : Nat) : writeAt buf off [] = buf := by
  simp [writeAt]

theorem reconstruct_nil : reconstruct [] = [] := rfl

theorem reconstruct_append (L1 L2 : List EmitLine) :
    reconstruct (L1 ++ L2) = reconstruct L1 ++ reconstruct L2 := by
  induction L1 with
  | nil => simp [reconstruct]
  | cons x xs ih =>
    match x with
    | (l, LineKind.newline) => simp [reconstruct] at ih ⊢; simp [ih]
    | (l, LineKind.forced) => simp [reconstruct] at ih ⊢; simp [ih]
    | (l, LineKind.final) => simp [reconstruct] at ih ⊢; simp [ih]

theorem reconstruct_newline (l : List Nat) : reconstruct [(l, LineKind.newline)] = l ++ [10] := by
  simp [reconstruct]

theorem reconstruct_forced (l : List Nat) : reconstruct [(l, LineKind.forced)] = l := by
  simp [reconstruct]

theorem reconstruct_final (l : List Nat) : reconstruct [(l, LineKind.final)] = l := by
  simp [reconstruct]

/-! ### Unfolding lemmas for the scan loop -/

theorem scanFrom_stop (lw : Bool) (buf : List Nat) (a i sz : Nat) (acc : List EmitLine)
    (h : ¬ i < sz) : scanFrom lw buf a i sz acc = (buf, a, acc) := by
  unfold scanFrom
  rw [show sz - i = 0 from by omega]
  rfl

theorem scanFrom_cr (lw : Bool) (buf : List Nat) (a i sz : Nat) (acc : List EmitLine)
    (h : i < sz) (hc : buf.getD i 0 = 13) :
    scanFrom lw buf a i sz acc = scanFrom lw (buf.set i 0) a (i + 1) sz acc := by
  have hc2 : buf[i]?.getD 0 = 13 := by rw [← List.getD_eq_getElem?_getD]; exact hc
  unfold scanFrom
  rw [show sz - i = (sz - (i + 1)) + 1 from by omega]
  simp only [scanFuel]
  simp [h, hc2]

theorem scanFrom_nl (lw : Bool) (buf : List Nat) (a i sz : Nat) (acc : List EmitLine)
    (h : i < sz) (hc : buf.getD i 0 = 10) :
    scanFrom lw buf a i sz acc = scanFrom lw (buf.set i 0) (i + 1) (i + 1) sz
      (acc ++ if lw then [(cString (buf.set i 0) a, LineKind.newline)] else []) := by
  have hc2 : buf[i]?.getD 0 = 10 := by rw [← List.getD_eq_getElem?_getD]; exact hc
  unfold scanFrom
  rw [show sz - i = (sz - (i + 1)) + 1 from by omega]
  simp only [scanFuel]
  simp [h, hc2]

theorem scanFrom_other (lw : Bool) (buf : List Nat) (a i sz : Nat) (acc : List EmitLine)
    (h : i < sz) (h13 : ¬ buf.getD i 0 = 13) (h10 : ¬ buf.getD i 0 = 10) :
    scanFrom lw buf a i sz acc = scanFrom lw buf a (i + 1) sz acc := by
  have h13b : ¬ buf[i]?.getD 0 = 13 := by rw [← List.getD_eq_getElem?_getD]; exact h13
  have h10b : ¬ buf[i]?.getD 0 = 10 := by rw [← List.getD_eq_getElem?_getD]; exact h10
  unfold scanFrom
  rw [show sz - i = (sz - (i + 1)) + 1 from by omega]
  simp only [scanFuel]
  simp [h, h13b, h10b]

/-- The accumulator of the scan loop is a passive prefix of its output. -/
theorem scanFrom_acc : ∀ (n : Nat) (lw : Bool) (buf : List Nat) (a i sz : Nat)
    (acc : List EmitLine), sz - i = n →
    scanFrom lw buf a i sz acc =
      ((scanFrom lw buf a i sz []).1, (scanFrom lw buf a i sz []).2.1,
        acc ++ (scanFrom lw buf a i sz []).2.2) := by
  intro n
  induction n with
  | zero =>
    intro lw buf a i sz acc h
    rw [scanFrom_stop _ _ _ _ _ _ (by omega), scanFrom_stop _ _ _ _ _ _ (by omega)]
    simp
  | succ m ih =>
    intro lw buf a i sz acc h
    have hi : i < sz := by omega
    by_cases h13 : buf.getD i 0 = 13
    · rw [scanFrom_cr _ _ _ _ _ _ hi h13, scanFrom_cr _ _ _ _ _ _ hi h13]
      exact ih _ _ _ _ _ _ (by omega)
    · by_cases h10 : buf.getD i 0 = 10
      · rw [scanFrom_nl _ _ _ _ _ _ hi h10, scanFrom_nl _ _ _ _ _ _ hi h10]
        rw [ih _ _ _ _ _ _ (by omega : sz - (i + 1) = m),
          ih _ _ _ _ _ (([] : List EmitLine) ++ _) (by omega : sz - (i + 1) = m)]
        simp
      · rw [scanFrom_other _ _ _ _ _ _ hi h13 h10, scanFrom_other _ _ _ _ _ _ hi h13 h10]
        exact ih _ _ _ _ _ _ (by omega)

/-- Scanning a region with no newline and no carriage return changes
nothing and emits nothing. -/
theorem scan_nochange : ∀ (n : Nat) (lw : Bool) (buf : List Nat) (a i sz : Nat)
    (acc : List EmitLine), sz - i = n →
    (∀ j, i ≤ j → j < sz → buf.getD j 0 ≠ 10 ∧ buf.getD j 0 ≠ 13) →
    scanFrom lw buf a i sz acc = (buf, a, acc) := by
  intro n
  induction n with
  | zero =>
    intro lw buf a i sz acc h hcl
    exact scanFrom_stop _ _ _ _ _ _ (by omega)
  | succ m ih =>
    intro lw buf a i sz acc h hcl
    have hi : i < sz := by omega
    have hc := hcl i (le_refl i) hi
    rw [scanFrom_other _ _ _ _ _ _ hi hc.2 hc.1]
    exact ih _ _ _ _ _ _ (by omega) fun j h1 h2 => hcl j (by omega) h2

theorem mem_slice_left (buf : List Nat) (a i sz : Nat) (hai : a ≤ i) (his : i ≤ sz)
    (x : Nat) (hx : x ∈ slice buf a i) : x ∈ slice buf a sz := by
  rw [slice_append buf a i sz hai his]
  exact List.mem_append_left _ hx

theorem mem_slice_right (buf : List Nat) (a i sz : Nat) (hai : a ≤ i) (his : i ≤ sz)
    (x : Nat) (hx : x ∈ slice buf i sz) : x ∈ slice buf a sz := by
  rw [slice_append buf a i sz hai his]
  exact List.mem_append_right _ hx

/-- Core characterization of the scan loop on a region free of NUL and
carriage-return bytes: it emits exactly the newline-terminated segments
(as newline-kind lines), leaves the unterminated tail in place
unchanged, and the emitted lines with their newlines reinserted
concatenate back to the scanned region. -/
theorem scan_clean : ∀ (n : Nat) (buf : List Nat) (a i sz : Nat) (acc : List EmitLine),
    sz - i = n → a ≤ i → i ≤ sz → sz ≤ buf.length →
    (∀ x ∈ slice buf a sz, x ≠ 0 ∧ x ≠ 13) →
    (∀ x ∈ slice buf a i, x ≠ 10) →
    ∃ buf2 a2 L,
      scanFrom true buf a i sz acc = (buf2, a2, acc ++ L) ∧
      buf2.length = buf.length ∧
      a ≤ a2 ∧ a2 ≤ sz ∧
      (a2 = a → L = []) ∧
      (∀ l ∈ L, l.2 = LineKind.newline) ∧
      reconstruct L ++ slice buf2 a2 sz = slice buf a sz ∧
      slice buf2 a2 sz = slice buf a2 sz ∧
      (∀ x ∈ slice buf2 a2 sz, x ≠ 10 ∧ x ≠ 0 ∧ x ≠ 13) := by
  intro n
  induction n with
  | zero =>
    intro buf a i sz acc h hai his hsz hcl hnl
    have hisz : i = sz := by omega
    refine ⟨buf, a, [], ?_, rfl, le_refl a, by omega, fun _ => rfl, by simp, ?_, rfl, ?_⟩
    · rw [scanFrom_stop _ _ _ _ _ _ (by omega)]
      simp
    · rw [reconstruct_nil]
      simp
    · intro x hx
      have hx2 : x ∈ slice buf a i := by rw [hisz]; exact hx
      exact ⟨hnl x hx2, (hcl x hx).1, (hcl x hx).2⟩
  | succ m ih =>
    intro buf a i sz acc h hai his hsz hcl hnl
    have hi : i < sz := by omega
    have hmem : buf.getD i 0 ∈ slice buf a sz := getD_mem_slice buf a sz i hai hi hsz
    have hc0 : buf.getD i 0 ≠ 0 := (hcl _ hmem).1
    have hc13 : buf.getD i 0 ≠ 13 := (hcl _ hmem).2
    by_cases h10 : buf.getD i 0 = 10
    · -- newline at position i: the segment [a, i) is emitted
      have hlen1 : (buf.set i 0).length = buf.length := List.length_set ..
      have hsl_ai : slice (buf.set i 0) a i = slice buf a i :=
        slice_set_outside buf i 0 a i (Or.inr (le_refl i))
      have hcs : cString (buf.set i 0) a = slice buf a i := by
        have h1 : cString (buf.set i 0) a = slice (buf.set i 0) a i := by
          apply cString_eq_slice (buf.set i 0) a i hai (by omega)
          · intro x hx
            rw [hsl_ai] at hx
            exact (hcl x (mem_slice_left buf a i sz hai (by omega) x hx)).1
          · exact getD_set_self buf i 0 (by omega)
        rw [hsl_ai] at h1
        exact h1
      have hsl_tail : slice (buf.set i 0) (i + 1) sz = slice buf (i + 1) sz :=
        slice_set_outside buf i 0 (i + 1) sz (Or.inl (by omega))
      obtain ⟨buf2, a2, L2, heq, hlen2, hha, hha2, hLa, hkinds, hrec, hsleq, hclf⟩ :=
        ih (buf.set i 0) (i + 1) (i + 1) sz
          (acc ++ [(cString (buf.set i 0) a, LineKind.newline)])
          (by omega) (le_refl _) (by omega) (by omega)
          (by
            intro x hx
            rw [hsl_tail] at hx
            exact hcl x (mem_slice_right buf a (i + 1) sz (by omega) (by omega) x hx))
          (by
            intro x hx
            rw [slice_nil _ _ _ (le_refl _)] at hx
            cases hx)
      refine ⟨buf2, a2, (cString (buf.set i 0) a, LineKind.newline) :: L2, ?_, ?_,
        by omega, hha2, ?_, ?_, ?_, ?_, hclf⟩
      · rw [scanFrom_nl true buf a i sz acc hi h10]
        have hif : (if true then [(cString (buf.set i 0) a, LineKind.newline)] else [])
            = [(cString (buf.set i 0) a, LineKind.newline)] := rfl
        rw [hif, heq]
        simp
      · rw [hlen2, hlen1]
      · intro hk
        exfalso
        omega
      · intro l hl
        rcases List.mem_cons.mp hl with h1 | h1
        · rw [h1]
        · exact hkinds l h1
      · have hstep : reconstruct ((cString (buf.set i 0) a, LineKind.newline) :: L2)
            = cString (buf.set i 0) a ++ 10 :: reconstruct L2 := rfl
        rw [hstep, hcs]
        have hsplit : slice buf a sz = slice buf a i ++ slice buf i sz :=
          slice_append buf a i sz hai (by omega)
        have hsplit2 : slice buf i sz = slice buf i (i + 1) ++ slice buf (i + 1) sz :=
          slice_append buf i (i + 1) sz (by omega) (by omega)
        have hone : slice buf i (i + 1) = [10] := by
          rw [slice_singleton buf i (by omega), h10]
        rw [hsplit, hsplit2, hone]
        rw [hsl_tail] at hrec
        rw [List.append_assoc, ← hrec]
        simp
      · rw [hsleq]
        exact slice_set_outside buf i 0 a2 sz (Or.inl (by omega))
    · -- no newline at position i: the scan just moves on
      rw [scanFrom_other true buf a i sz acc hi hc13 h10]
      obtain ⟨buf2, a2, L2, heq, hlen2, hha, hha2, hLa, hkinds, hrec, hsleq, hclf⟩ :=
        ih buf a (i + 1) sz acc (by omega) (by omega) (by omega) hsz hcl
          (by
            intro x hx
            rw [slice_append buf a i (i + 1) hai (by omega)] at hx
            rcases List.mem_append.mp hx with h1 | h1
            · exact hnl x h1
            · rw [slice_singleton buf i (by omega)] at h1
              rw [List.mem_singleton.mp h1]
              exact h10)
      exact ⟨buf2, a2, L2, heq, hlen2, by omega, hha2, by
        intro hk
        exact hLa hk, hkinds, hrec, hsleq, hclf⟩

/-- Bounds facts about the scan loop for arbitrary buffer contents:
the buffer keeps its length and the final `a` stays within `[a, sz]`. -/
theorem scan_bounds : ∀ (n : Nat) (lw : Bool) (buf : List Nat) (a i sz : Nat)
    (acc : List EmitLine), sz - i = n → a ≤ i → i ≤ sz →
    (scanFrom lw buf a i sz acc).1.length = buf.length ∧
    a ≤ (scanFrom lw buf a i sz acc).2.1 ∧ (scanFrom lw buf a i sz acc).2.1 ≤ sz := by
  intro n
  induction n with
  | zero =>
    intro lw buf a i sz acc h hai his
    rw [scanFrom_stop _ _ _ _ _ _ (by omega)]
    exact ⟨rfl, le_refl a, le_trans hai his⟩
  | succ m ih =>
    intro lw buf a i sz acc h hai his
    have hi : i < sz := by omega
    by_cases h13 : buf.getD i 0 = 13
    · rw [scanFrom_cr _ _ _ _ _ _ hi h13]
      have h2 := ih lw (buf.set i 0) a (i + 1) sz acc (by omega) (by omega) (by omega)
      rw [List.length_set] at h2
      exact h2
    · by_cases h10 : buf.getD i 0 = 10
      · rw [scanFrom_nl _ _ _ _ _ _ hi h10]
        have h2 := ih lw (buf.set i 0) (i + 1) (i + 1) sz
          (acc ++ if lw then [(cString (buf.set i 0) a, LineKind.newline)] else [])
          (by omega) (le_refl _) (by omega)
        rw [List.length_set] at h2
        exact ⟨h2.1, by omega, h2.2.2⟩
      · rw [scanFrom_other _ _ _ _ _ _ hi h13 h10]
        exact ih lw buf a (i + 1) sz acc (by omega) (by omega) (by omega)

theorem processScan_bufInv (lw : Bool) (buf : List Nat) (sz : Nat)
    (hlen : buf.length = BUFSZ) (hsz : sz ≤ BUFSZ - 1) :
    BufInv (processScan lw buf 0 sz).1 := by
  have hB : BUFSZ = 4096 := rfl
  obtain ⟨h1, h2, h3⟩ := scan_bounds (sz - 0) lw buf 0 0 sz [] rfl (le_refl 0) (by omega)
  simp only [processScan]
  by_cases hf : (scanFrom lw buf 0 0 sz []).2.1 = 0 ∧ sz = BUFSZ - 1
  · rw [if_pos hf]
    refine ⟨hf.1, Nat.zero_le _, ?_⟩
    show ((scanFrom lw buf 0 0 sz []).1.set (BUFSZ - 1) 0).length = BUFSZ
    rw [List.length_set, h1, hlen]
  · rw [if_neg hf]
    by_cases hne : (scanFrom lw buf 0 0 sz []).2.1 ≠ sz
    · rw [if_pos hne]
      refine ⟨rfl, ?_, ?_⟩
      · show sz - (scanFrom lw buf 0 0 sz []).2.1 ≤ BUFSZ - 2
        rcases not_and_or.mp hf with h4 | h4 <;> omega
      · show (memmoveFront (scanFrom lw buf 0 0 sz []).1 (scanFrom lw buf 0 0 sz []).2.1
          (sz - (scanFrom lw buf 0 0 sz []).2.1)).length = BUFSZ
        rw [memmoveFront_length _ _ _ (by omega), h1, hlen]
    · rw [if_neg hne]
      refine ⟨rfl, Nat.zero_le _, ?_⟩
      show (scanFrom lw buf 0 0 sz []).1.length = BUFSZ
      rw [h1, hlen]

/-- Every pump cycle re-establishes the structural invariant. -/
theorem pumpCycle_bufInv (lw : Bool) (st : PumpState) (rr : ReadResult)
    (h : BufInv st) : BufInv (pumpCycle lw st rr).1 := by
  obtain ⟨ha, hb, hlen⟩ := h
  have hB : BUFSZ = 4096 := rfl
  match rr with
  | .err =>
    simp only [pumpCycle]
    rw [ha]
    exact processScan_bufInv lw st.buf _ hlen (by omega)
  | .ok data =>
    simp only [pumpCycle]
    rw [ha]
    have hck : (data.take (BUFSZ - 1 - st.b)).length ≤ BUFSZ - 1 - st.b := by
      simp [List.length_take]
    apply processScan_bufInv
    · rw [writeAt_length _ _ _ (by omega)]
      exact hlen
    · omega

theorem bufInv_init : BufInv initPumpState :=
  ⟨rfl, Nat.zero_le _, by simp [initPumpState]⟩

theorem fragClean_init : FragClean initPumpState := by
  intro x hx
  have hx2 : x ∈ slice initPumpState.buf 0 0 := hx
  rw [slice_nil _ _ _ (le_refl 0)] at hx2
  cases hx2

/-- One successful clean read cycle preserves both invariants, and the
emitted lines (terminators reinserted) plus the new fragment account
exactly for the old fragment plus the newly read bytes. -/
theorem pumpCycle_clean (st : PumpState) (c : List Nat)
    (hinv : BufInv st) (hfr : FragClean st)
    (hcl : ∀ x ∈ c, x ≠ 0 ∧ x ≠ 13)
    (hfit : c.length ≤ BUFSZ - 1 - st.b) :
    BufInv (pumpCycle true st (.ok c)).1 ∧ FragClean (pumpCycle true st (.ok c)).1 ∧
    reconstruct (pumpCycle true st (.ok c)).2 ++
        slice (pumpCycle true st (.ok c)).1.buf 0 (pumpCycle true st (.ok c)).1.b
      = slice st.buf 0 st.b ++ c := by
  obtain ⟨ha, hb, hlen⟩ := hinv
  have hB : BUFSZ = 4096 := rfl
  have htake : c.take (BUFSZ - 1 - st.b) = c := List.take_of_length_le hfit
  have hlen1 : (writeAt st.buf st.b c).length = BUFSZ := by
    rw [writeAt_length _ _ _ (by omega)]
    exact hlen
  have hsz : st.b + c.length ≤ BUFSZ - 1 := by omega
  have hslice : slice (writeAt st.buf st.b c) 0 (st.b + c.length)
      = slice st.buf 0 st.b ++ c := slice_writeAt_front st.buf st.b c (by omega)
  have hclR : ∀ x ∈ slice (writeAt st.buf st.b c) 0 (st.b + c.length), x ≠ 0 ∧ x ≠ 13 := by
    rw [hslice]
    intro x hx
    rcases List.mem_append.mp hx with h1 | h1
    · exact ⟨(hfr x h1).2.1, (hfr x h1).2.2⟩
    · exact hcl x h1
  obtain ⟨buf2, a2, L, heq, hlen2, -, ha2sz, hLa, hkinds, hrec, hsleq, hclf⟩ :=
    scan_clean (st.b + c.length) (writeAt st.buf st.b c) 0 0 (st.b + c.length) []
      (by omega) (le_refl 0) (Nat.zero_le _) (by omega) hclR
      (by intro x hx; rw [slice_nil _ _ _ (le_refl 0)] at hx; cases hx)
  rw [List.nil_append] at heq
  simp only [pumpCycle, htake, ha, processScan, heq]
  by_cases hforce : a2 = 0 ∧ st.b + c.length = BUFSZ - 1
  · rw [if_pos hforce]
    have hL : L = [] := hLa hforce.1
    subst hL
    have hw : slice buf2 0 (st.b + c.length) = slice st.buf 0 st.b ++ c := by
      rw [← hslice, ← hrec, hforce.1, reconstruct_nil, List.nil_append]
    have hcs : cString (buf2.set (BUFSZ - 1) 0) a2 = slice st.buf 0 st.b ++ c := by
      rw [hforce.1]
      have h1 : cString (buf2.set (BUFSZ - 1) 0) 0 = slice (buf2.set (BUFSZ - 1) 0) 0 (BUFSZ - 1) := by
        apply cString_eq_slice _ 0 (BUFSZ - 1) (Nat.zero_le _)
          (by rw [List.length_set, hlen2, hlen1]; omega)
        · intro x hx
          rw [slice_set_outside buf2 (BUFSZ - 1) 0 0 (BUFSZ - 1) (Or.inr (le_refl _))] at hx
          rw [show BUFSZ - 1 = st.b + c.length from hforce.2.symm] at hx
          rw [hw] at hx
          rcases List.mem_append.mp hx with h2 | h2
          · exact (hfr x h2).2.1
          · exact (hcl x h2).1
        · exact getD_set_self buf2 (BUFSZ - 1) 0 (by rw [hlen2, hlen1]; omega)
      rw [h1, slice_set_outside buf2 (BUFSZ - 1) 0 0 (BUFSZ - 1) (Or.inr (le_refl _)),
        show BUFSZ - 1 = st.b + c.length from hforce.2.symm, hw]
    refine ⟨⟨hforce.1, Nat.zero_le _, ?_⟩, ?_, ?_⟩
    · show (buf2.set (BUFSZ - 1) 0).length = BUFSZ
      rw [List.length_set, hlen2, hlen1]
    · intro x hx
      have hx2 : x ∈ slice (buf2.set (BUFSZ - 1) 0) 0 0 := hx
      rw [slice_nil _ _ _ (le_refl 0)] at hx2
      cases hx2
    · show reconstruct ([] ++ if true then [(cString (buf2.set (BUFSZ - 1) 0) a2, LineKind.forced)] else [])
          ++ slice (buf2.set (BUFSZ - 1) 0) 0 0 = slice st.buf 0 st.b ++ c
      rw [slice_nil _ _ _ (le_refl 0), List.nil_append, List.append_nil]
      show reconstruct [(cString (buf2.set (BUFSZ - 1) 0) a2, LineKind.forced)] = _
      rw [reconstruct_forced, hcs]
  · rw [if_neg hforce]
    by_cases hne : a2 ≠ st.b + c.length
    · rw [if_pos hne]
      have hmm : a2 + (st.b + c.length - a2) = st.b + c.length := by omega
      have hfrag : slice (memmoveFront buf2 a2 (st.b + c.length - a2)) 0 (st.b + c.length - a2)
          = slice buf2 a2 (st.b + c.length) := by
        rw [slice_memmoveFront buf2 a2 (st.b + c.length - a2) (by rw [hlen2, hlen1]; omega), hmm]
      refine ⟨⟨rfl, ?_, ?_⟩, ?_, ?_⟩
      · show st.b + c.length - a2 ≤ BUFSZ - 2
        rcases not_and_or.mp hforce with h4 | h4 <;> omega
      · show (memmoveFront buf2 a2 (st.b + c.length - a2)).length = BUFSZ
        rw [memmoveFront_length _ _ _ (by rw [hlen2, hlen1]; omega), hlen2, hlen1]
      · intro x hx
        have hx2 : x ∈ slice (memmoveFront buf2 a2 (st.b + c.length - a2)) 0
            (st.b + c.length - a2) := hx
        rw [hfrag] at hx2
        exact hclf x hx2
      · show reconstruct L ++ slice (memmoveFront buf2 a2 (st.b + c.length - a2)) 0
            (st.b + c.length - a2) = slice st.buf 0 st.b ++ c
        rw [hfrag, hrec, hslice]
    · rw [if_neg hne]
      push_neg at hne
      refine ⟨⟨rfl, Nat.zero_le _, ?_⟩, ?_, ?_⟩
      · show buf2.length = BUFSZ
        rw [hlen2, hlen1]
      · intro x hx
        have hx2 : x ∈ slice buf2 0 0 := hx
        rw [slice_nil _ _ _ (le_refl 0)] at hx2
        cases hx2
      · show reconstruct L ++ slice buf2 0 0 = slice st.buf 0 st.b ++ c
        rw [slice_nil _ _ _ (le_refl 0), List.append_nil, ← hslice, ← hrec, hne,
          slice_nil _ _ _ (le_refl _), List.append_nil]

theorem cleanByte_spec (data : List Nat) (h : data.all cleanByte = true) :
    ∀ x ∈ data, x ≠ 0 ∧ x ≠ 13 := by
  intro x hx
  have h2 := List.all_eq_true.mp h x hx
  simp [cleanByte] at h2
  exact h2

theorem chunksOf_cons (ev : PollEvent) (rest : List PollEvent) :
    chunksOf (ev :: rest) = chunkOf ev ++ chunksOf rest := by
  simp [chunksOf]

theorem all_nonTerminal_tail (ev : PollEvent) (rest : List PollEvent)
    (h : (ev :: rest).dropLast.all nonTerminal = true) :
    rest.dropLast.all nonTerminal = true := by
  match rest with
  | [] => rfl
  | r :: rs =>
    rw [List.dropLast_cons₂, List.all_cons, Bool.and_eq_true] at h
    exact h.2

theorem terminal_head_last (ev : PollEvent) (rest : List PollEvent)
    (h : (ev :: rest).dropLast.all nonTerminal = true)
    (hterm : nonTerminal ev = false) : rest = [] := by
  match rest with
  | [] => rfl
  | r :: rs =>
    rw [List.dropLast_cons₂, List.all_cons, hterm] at h
    simp at h

/-- The POLLIN handling of one clean, fitting wakeup preserves the
invariants and accounts for exactly the bytes the wakeup delivered. -/
theorem readStep_clean (st : PumpState) (ev : PollEvent)
    (hbi : BufInv st) (hfc : FragClean st)
    (herr : ev.readEv ≠ some ReadResult.err)
    (hcl : ∀ x ∈ chunkOf ev, x ≠ 0 ∧ x ≠ 13)
    (hfit : (chunkOf ev).length ≤ BUFSZ - 1 - st.b) :
    BufInv (readStep true st ev).1 ∧ FragClean (readStep true st ev).1 ∧
    reconstruct (readStep true st ev).2 ++
      slice (readStep true st ev).1.buf 0 (readStep true st ev).1.b
      = slice st.buf 0 st.b ++ chunkOf ev := by
  rcases ev with ⟨re, he⟩
  match re with
  | none =>
    refine ⟨hbi, hfc, ?_⟩
    show reconstruct [] ++ slice st.buf 0 st.b = slice st.buf 0 st.b ++ chunkOf ⟨none, he⟩
    rw [reconstruct_nil, List.nil_append]
    show _ = slice st.buf 0 st.b ++ []
    rw [List.append_nil]
  | some ReadResult.err => exact absurd rfl herr
  | some (ReadResult.ok data) =>
    have h1 : chunkOf ⟨some (ReadResult.ok data), he⟩ = data := rfl
    rw [h1] at hcl hfit
    exact pumpCycle_clean st data hbi hfc hcl hfit

/-- Loop-level round trip: over clean, fitting wakeups whose terminating
wakeup (if any) comes last, the pump loop preserves both invariants, and
its emitted lines with terminators reinserted plus the final fragment
reassemble the initial fragment plus every byte read. -/
theorem pumpLoop_clean : ∀ (evs : List PollEvent) (st : PumpState) (acc : List EmitLine)
    (st2 : PumpState) (L : List EmitLine) (out : PumpOutcome),
    BufInv st → FragClean st →
    cleanEvs evs = true → fits st evs = true →
    evs.dropLast.all nonTerminal = true →
    pumpLoop true st acc evs = some (st2, L, out) →
    BufInv st2 ∧ FragClean st2 ∧
    ∃ L2, L = acc ++ L2 ∧
      reconstruct L2 ++ slice st2.buf 0 st2.b = slice st.buf 0 st.b ++ chunksOf evs := by
  intro evs
  induction evs with
  | nil =>
    intro st acc st2 L out _ _ _ _ _ heq
    exact absurd heq (by simp [pumpLoop])
  | cons ev rest ih =>
    intro st acc st2 L out hbi hfc hcl hfit hterm heq
    rw [cleanEvs, List.all_cons, Bool.and_eq_true] at hcl
    have hclrest : cleanEvs rest = true := hcl.2
    have hclhead := hcl.1
    have herr : ev.readEv ≠ some ReadResult.err := by
      intro hx
      rw [hx] at hclhead
      simp at hclhead
    have hclchunk : ∀ x ∈ chunkOf ev, x ≠ 0 ∧ x ≠ 13 := by
      match hre : ev.readEv with
      | none =>
        intro x hx
        simp [chunkOf, hre] at hx
      | some ReadResult.err => exact absurd hre herr
      | some (ReadResult.ok data) =>
        rw [hre] at hclhead
        have h2 : chunkOf ev = data := by rw [chunkOf, hre]
        rw [h2]
        exact cleanByte_spec data hclhead
    rw [fits, Bool.and_eq_true] at hfit
    have hfitrest : fits (readStep true st ev).1 rest = true := hfit.2
    have hfitchunk : (chunkOf ev).length ≤ BUFSZ - 1 - st.b := by
      match hre : ev.readEv with
      | none => simp [chunkOf, hre]
      | some ReadResult.err => exact absurd hre herr
      | some (ReadResult.ok data) =>
        have h2 := hfit.1
        rw [hre] at h2
        simp at h2
        have h3 : chunkOf ev = data := by rw [chunkOf, hre]
        rw [h3]
        exact h2
    obtain ⟨hbi1, hfc1, hacct⟩ := readStep_clean st ev hbi hfc herr hclchunk hfitchunk
    rw [pumpLoop] at heq
    match hhe : ev.hupEv with
    | some (ReapResult.failed e) =>
      rw [hhe] at heq
      have hrest : rest = [] := terminal_head_last ev rest hterm (by rw [nonTerminal, hhe])
      simp only [Option.some.injEq, Prod.mk.injEq] at heq
      obtain ⟨h1, h2, -⟩ := heq
      subst hrest
      refine ⟨h1 ▸ hbi1, h1 ▸ hfc1, (readStep true st ev).2, h2.symm, ?_⟩
      rw [chunksOf_cons]
      show _ = slice st.buf 0 st.b ++ (chunkOf ev ++ chunksOf [])
      rw [show chunksOf [] = [] from rfl, List.append_nil, ← hacct, ← h1]
    | some (ReapResult.reaped s) =>
      rw [hhe] at heq
      have hrest : rest = [] := terminal_head_last ev rest hterm (by rw [nonTerminal, hhe])
      simp only [Option.some.injEq, Prod.mk.injEq] at heq
      obtain ⟨h1, h2, -⟩ := heq
      subst hrest
      refine ⟨h1 ▸ hbi1, h1 ▸ hfc1, (readStep true st ev).2, h2.symm, ?_⟩
      rw [chunksOf_cons]
      show _ = slice st.buf 0 st.b ++ (chunkOf ev ++ chunksOf [])
      rw [show chunksOf [] = [] from rfl, List.append_nil, ← hacct, ← h1]
    | some ReapResult.notYet =>
      rw [hhe] at heq
      obtain ⟨hbi2, hfc2, L2, hL2, hrec2⟩ :=
        ih (readStep true st ev).1 (acc ++ (readStep true st ev).2) st2 L out
          hbi1 hfc1 hclrest hfitrest (all_nonTerminal_tail ev rest hterm) heq
      refine ⟨hbi2, hfc2, (readStep true st ev).2 ++ L2, by rw [hL2, List.append_assoc], ?_⟩
      rw [chunksOf_cons, reconstruct_append, List.append_assoc, hrec2, ← List.append_assoc,
        hacct, List.append_assoc]
    | none =>
      rw [hhe] at heq
      obtain ⟨hbi2, hfc2, L2, hL2, hrec2⟩ :=
        ih (readStep true st ev).1 (acc ++ (readStep true st ev).2) st2 L out
          hbi1 hfc1 hclrest hfitrest (all_nonTerminal_tail ev rest hterm) heq
      refine ⟨hbi2, hfc2, (readStep true st ev).2 ++ L2, by rw [hL2, List.append_assoc], ?_⟩
      rw [chunksOf_cons, reconstruct_append, List.append_assoc, hrec2, ← List.append_assoc,
        hacct, List.append_assoc]

theorem getD_mem (l : List Nat) (n : Nat) (h : n < l.length) : l.getD n 0 ∈ l := by
  rw [List.getD_eq_getElem _ _ h]
  exact List.getElem_mem h

theorem writeAt_zero (buf data : List Nat) : writeAt buf 0 data = data ++ buf.drop data.length := by
  simp [writeAt]

theorem slice_eq_list (buf : List Nat) (i : Nat) (l : List Nat)
    (h : i + l.length ≤ buf.length)
    (hl : ∀ k, k < l.length → buf.getD (i + k) 0 = l.getD k 0) :
    slice buf i (i + l.length) = l := by
  apply List.ext_getElem
  · rw [slice_length buf i (i + l.length) h]
    omega
  · intro n h1 h2
    rw [getElem_slice buf i (i + l.length) n h1 (by omega)]
    have h3 := hl n h2
    rw [List.getD_eq_getElem _ _ (by omega), List.getD_eq_getElem _ _ h2] at h3
    exact h3

/-- The final fragment flush (logwrap.c lines 136-140) emits exactly the
fragment bytes when the fragment is NUL-free. -/
theorem finalFlush_line (st : PumpState) (hbi : BufInv st) (hfc : FragClean st)
    (hb : st.b ≠ 0) :
    cString (st.buf.set st.b 0) st.a = slice st.buf 0 st.b := by
  obtain ⟨ha, hb2, hlen⟩ := hbi
  have hB : BUFSZ = 4096 := rfl
  rw [ha]
  have h1 : cString (st.buf.set st.b 0) 0 = slice (st.buf.set st.b 0) 0 st.b := by
    apply cString_eq_slice _ 0 st.b (Nat.zero_le _) (by rw [List.length_set]; omega)
    · intro x hx
      rw [slice_set_outside st.buf st.b 0 0 st.b (Or.inr (le_refl _))] at hx
      exact (hfc x hx).2.1
    · exact getD_set_self st.buf st.b 0 (by omega)
  rw [h1, slice_set_outside st.buf st.b 0 0 st.b (Or.inr (le_refl _))]

/-- Full-run round trip (the amended C2 property, general form): for a
clean, fitting wakeup sequence that ends with a successful reap, the
emitted lines with their stripped terminators reinserted reassemble
exactly the bytes read. -/
theorem runPump_clean (evs : List PollEvent) (hasSlot : Bool) (st2 : PumpState)
    (L : List EmitLine) (s : Nat)
    (hcl : cleanEvs evs = true) (hfit : fits initPumpState evs = true)
    (hterm : evs.dropLast.all nonTerminal = true)
    (hloop : pumpLoop true initPumpState [] evs = some (st2, L, PumpOutcome.reaped s)) :
    (runPump true hasSlot evs).map (fun r => reconstruct r.lines) = some (chunksOf evs) := by
  obtain ⟨hbi2, hfc2, L2, hL2, hrec⟩ :=
    pumpLoop_clean evs initPumpState [] st2 L (PumpOutcome.reaped s)
      bufInv_init fragClean_init hcl hfit hterm hloop
  rw [List.nil_append] at hL2
  subst hL2
  have hfrag0 : slice initPumpState.buf 0 initPumpState.b = [] :=
    slice_nil _ _ _ (le_refl 0)
  rw [hfrag0, List.nil_append] at hrec
  rw [runPump, hloop]; simp only [Option.map_some']
  congr 1
  have hlines : (parentFinish true hasSlot st2 L (PumpOutcome.reaped s)).lines
      = L ++ (if st2.a ≠ st2.b then [(cString (st2.buf.set st2.b 0) st2.a, LineKind.final)]
          else []) := by
    simp [parentFinish]
  show reconstruct (parentFinish true hasSlot st2 L (PumpOutcome.reaped s)).lines = chunksOf evs
  rw [hlines]
  by_cases hb : st2.b = 0
  · have hfl : ¬ st2.a ≠ st2.b := by rw [hbi2.1, hb]; simp
    rw [if_neg hfl, List.append_nil]
    have h2 : slice st2.buf 0 st2.b = [] := by rw [hb]; exact slice_nil _ _ _ (le_refl 0)
    rw [h2, List.append_nil] at hrec
    exact hrec
  · have hne : st2.a ≠ st2.b := by rw [hbi2.1]; exact fun hx => hb hx.symm
    rw [if_pos hne, reconstruct_append, reconstruct_final, finalFlush_line st2 hbi2 hfc2 hb]
    exact hrec

/-- Status translation agrees with the claim on normal exits. -/
theorem translate_exit (N : Nat) (h : N ≤ 255) :
    translateStatus (256 * N) = (N : Int) := by
  have h1 : WIFEXITED (256 * N) = true := by
    simp only [WIFEXITED, decide_eq_true_eq]
    omega
  rw [translateStatus, if_pos h1]
  congr 1
  simp only [WEXITSTATUS]
  omega

/-- Status translation yields the fixed negative sentinel on any
signal-termination status. -/
theorem translate_signal (s : Nat) (h : WIFSIGNALED s = true) :
    translateStatus s = -10 := by
  simp only [WIFSIGNALED, Bool.and_eq_true, decide_eq_true_eq] at h
  have h1 : WIFEXITED s = false := by
    simp only [WIFEXITED, decide_eq_false_iff_not]
    omega
  rw [translateStatus, h1]
  simp [ECHILD]

/-- When no status slot is supplied, the pump's return value is the
translated status of the reaped child. -/
theorem runPump_rc (lw : Bool) (evs : List PollEvent) (st2 : PumpState)
    (L : List EmitLine) (s : Nat)
    (hloop : pumpLoop lw initPumpState [] evs = some (st2, L, PumpOutcome.reaped s)) :
    (runPump lw false evs).map ParentResult.rc = some (translateStatus s) := by
  rw [runPump, hloop]; simp only [Option.map_some']
  cases lw <;> simp [parentFinish]

/-- When a status slot is supplied, the raw status is stored in the slot
and the pump's return value is 0. -/
theorem runPump_slot (lw : Bool) (evs : List PollEvent) (st2 : PumpState)
    (L : List EmitLine) (s : Nat)
    (hloop : pumpLoop lw initPumpState [] evs = some (st2, L, PumpOutcome.reaped s)) :
    (runPump lw true evs).map (fun r => (r.rawSlot, r.rc)) = some (some s, 0) := by
  rw [runPump, hloop]; simp only [Option.map_some']
  cases lw <;> simp [parentFinish]

/-- Stepping the scan up to the first newline: positions `[i, p)` hold
no newline, position `p` holds one.  The scan reaches `p`, rewrites the
carriage returns it passed to NUL (leaving all other bytes alone), then
takes the newline step there. -/
theorem scan_to_newline : ∀ (n : Nat) (lw : Bool) (buf : List Nat) (a i sz : Nat)
    (acc : List EmitLine) (p : Nat), p - i = n → i ≤ p → p < sz → sz ≤ buf.length →
    (∀ j, i ≤ j → j < p → buf.getD j 0 ≠ 10) →
    buf.getD p 0 = 10 →
    ∃ buf2 : List Nat,
      scanFrom lw buf a i sz acc
        = scanFrom lw (buf2.set p 0) (p + 1) (p + 1) sz
            (acc ++ if lw then [(cString (buf2.set p 0) a, LineKind.newline)] else []) ∧
      buf2.length = buf.length ∧
      (∀ j, (j < i ∨ p ≤ j) → buf2.getD j 0 = buf.getD j 0) ∧
      (∀ j, i ≤ j → j < p →
        buf2.getD j 0 = (if buf.getD j 0 = 13 then 0 else buf.getD j 0)) := by
  intro n
  induction n with
  | zero =>
    intro lw buf a i sz acc p h hip hpsz hsz hno h10
    have hip2 : i = p := by omega
    subst hip2
    exact ⟨buf, scanFrom_nl lw buf a i sz acc (by omega) h10, rfl,
      fun j _ => rfl, fun j h1 h2 => absurd h2 (by omega)⟩
  | succ m ih =>
    intro lw buf a i sz acc p h hip hpsz hsz hno h10
    have hi : i < p := by omega
    have hisz : i < sz := by omega
    have hno_i : buf.getD i 0 ≠ 10 := hno i (le_refl i) hi
    by_cases h13 : buf.getD i 0 = 13
    · rw [scanFrom_cr lw buf a i sz acc hisz h13]
      have h10b : (buf.set i 0).getD p 0 = 10 := by
        rw [getD_set_ne buf i p 0 (by omega)]
        exact h10
      obtain ⟨buf2, heq, hlen2, hout, hin⟩ :=
        ih lw (buf.set i 0) a (i + 1) sz acc p (by omega) (by omega) hpsz
          (by rw [List.length_set]; exact hsz)
          (fun j h1 h2 => by
            rw [getD_set_ne buf i j 0 (by omega)]
            exact hno j (by omega) h2)
          h10b
      refine ⟨buf2, heq, by rw [hlen2, List.length_set], ?_, ?_⟩
      · intro j hj
        have hj2 : j < i + 1 ∨ p ≤ j := by omega
        rw [hout j hj2, getD_set_ne buf i j 0 (by omega)]
      · intro j h1 h2
        by_cases hji : j = i
        · subst hji
          rw [hout j (Or.inl (by omega)), getD_set_self buf j 0 (by omega), if_pos h13]
        · rw [hin j (by omega) h2, getD_set_ne buf i j 0 (by omega)]
    · rw [scanFrom_other lw buf a i sz acc hisz h13 hno_i]
      obtain ⟨buf2, heq, hlen2, hout, hin⟩ :=
        ih lw buf a (i + 1) sz acc p (by omega) (by omega) hpsz hsz
          (fun j h1 h2 => hno j (by omega) h2) h10
      refine ⟨buf2, heq, hlen2, ?_, ?_⟩
      · intro j hj
        have hj2 : j < i + 1 ∨ p ≤ j := by omega
        exact hout j hj2
      · intro j h1 h2
        by_cases hji : j = i
        · subst hji
          rw [hout j (Or.inl (by omega)), if_neg h13]
        · rw [hin j (by omega) h2]

/-- Byte lookup into a freshly written buffer region. -/
theorem getD_writeAt_front (buf data : List Nat) (j : Nat) (hj : j < data.length) :
    (writeAt buf 0 data).getD j 0 = data.getD j 0 := by
  rw [writeAt_zero]
  exact List.getD_append _ _ _ _ hj

/-- A line whose content starts `u`, then holds a NUL or carriage-return
byte `d`, then any non-newline bytes `v` before its newline, is emitted
truncated to exactly `u`: the bytes of `v` never reach the sink. -/
theorem firstLine_truncated (u v t : List Nat) (d : Nat)
    (hd : d = 0 ∨ d = 13)
    (hu : ∀ x ∈ u, x ≠ 0 ∧ x ≠ 10 ∧ x ≠ 13)
    (hv : ∀ x ∈ v, x ≠ 10)
    (hlen : (u ++ d :: v ++ 10 :: t).length ≤ BUFSZ - 1) :
    ∃ rest : List EmitLine,
      (pumpCycle true initPumpState (ReadResult.ok (u ++ d :: v ++ 10 :: t))).2
        = (u, LineKind.newline) :: rest := by
  have hB : BUFSZ = 4096 := rfl
  set w := u ++ d :: v ++ 10 :: t with hw
  set p := u.length + 1 + v.length with hp
  have hwlen : w.length = u.length + 1 + v.length + 1 + t.length := by
    simp [hw]
    omega
  have hpw : p < w.length := by omega
  have hinit : initPumpState.buf.length = BUFSZ := by simp [initPumpState]
  have hb0 : initPumpState.b = 0 := rfl
  have ha0 : initPumpState.a = 0 := rfl
  have htake : w.take (BUFSZ - 1) = w := by
    apply List.take_of_length_le
    omega
  set buf1 := writeAt initPumpState.buf 0 w with hbuf1
  have hlen1 : buf1.length = BUFSZ := by
    rw [hbuf1, writeAt_length _ _ _ (by omega)]
    exact hinit
  have hw_at : ∀ j, j < w.length → buf1.getD j 0 = w.getD j 0 := by
    intro j hj
    rw [hbuf1]
    exact getD_writeAt_front _ _ _ hj
  have hlen_ud : (u ++ d :: v).length = u.length + 1 + v.length := by
    simp
    omega
  have hw_u : ∀ j, j < u.length → buf1.getD j 0 = u.getD j 0 := by
    intro j hj
    rw [hw_at j (by omega), hw,
      List.getD_append (u ++ d :: v) (10 :: t) 0 j (by omega),
      List.getD_append u (d :: v) 0 j hj]
  have hw_d : buf1.getD u.length 0 = d := by
    rw [hw_at u.length (by omega), hw,
      List.getD_append (u ++ d :: v) (10 :: t) 0 u.length (by omega),
      List.getD_append_right u (d :: v) 0 u.length (le_refl _)]
    simp
  have hw_v : ∀ k, k < v.length → buf1.getD (u.length + 1 + k) 0 = v.getD k 0 := by
    intro k hk
    rw [hw_at _ (by omega), hw,
      List.getD_append (u ++ d :: v) (10 :: t) 0 (u.length + 1 + k) (by omega),
      List.getD_append_right u (d :: v) 0 (u.length + 1 + k) (by omega)]
    have h2 : u.length + 1 + k - u.length = k + 1 := by omega
    rw [h2, List.getD_cons_succ]
  have hw_p : buf1.getD p 0 = 10 := by
    rw [hw_at _ (by omega), hw,
      List.getD_append_right (u ++ d :: v) (10 :: t) 0 p (by omega)]
    have h2 : p - (u ++ d :: v).length = 0 := by omega
    rw [h2]
    simp
  obtain ⟨buf2, heq, hlen2, hout, hin⟩ :=
    scan_to_newline p true buf1 0 0 w.length [] p rfl (Nat.zero_le _) hpw
      (by rw [hlen1]; omega)
      (by
        intro j h1 h2
        by_cases hju : j < u.length
        · rw [hw_u j hju]
          exact (hu _ (getD_mem u j hju)).2.1
        · by_cases hjd : j = u.length
          · subst hjd
            rw [hw_d]
            rcases hd with h3 | h3 <;> omega
          · have hk : j = u.length + 1 + (j - u.length - 1) := by omega
            rw [hk, hw_v _ (by omega)]
            exact hv _ (getD_mem v _ (by omega)))
      hw_p
  have hcs : cString (buf2.set p 0) 0 = u := by
    have hs1 : slice (buf2.set p 0) 0 (0 + u.length) = u := by
      apply slice_eq_list _ 0 u (by rw [List.length_set, hlen2, hlen1]; omega)
      intro k hk
      rw [Nat.zero_add, getD_set_ne buf2 p k 0 (by omega), hin k (Nat.zero_le _) (by omega),
        hw_u k hk]
      rw [if_neg (hu _ (getD_mem u k hk)).2.2]
    rw [Nat.zero_add] at hs1
    have hs2 : cString (buf2.set p 0) 0 = slice (buf2.set p 0) 0 u.length := by
      apply cString_eq_slice _ 0 u.length (Nat.zero_le _)
        (by rw [List.length_set, hlen2, hlen1]; omega)
      · intro x hx
        rw [hs1] at hx
        exact (hu x hx).1
      · rw [getD_set_ne buf2 p u.length 0 (by omega), hin u.length (Nat.zero_le _) (by omega),
          hw_d]
        rcases hd with h3 | h3 <;> rw [h3] <;> simp
    rw [hs2, hs1]
  have hiftrue : (if true then [(cString (buf2.set p 0) 0, LineKind.newline)] else [])
      = [(u, LineKind.newline)] := by
    rw [if_pos rfl, hcs]
  rw [hiftrue] at heq
  have hacc := scanFrom_acc (w.length - (p + 1)) true (buf2.set p 0) (p + 1) (p + 1) w.length
    ([] ++ [(u, LineKind.newline)]) rfl
  rw [hacc, List.nil_append] at heq
  simp only [pumpCycle, hb0, ha0, Nat.sub_zero, htake, Nat.zero_add, processScan,
    ← hbuf1, heq]
  split_ifs with h1 h2
  · exact ⟨_, List.cons_append _ _ _⟩
  · exact ⟨_, rfl⟩
  · exact ⟨_, rfl⟩

/-- A NUL-terminated prefix read: the C string at offset 0 is exactly
`u` when the buffer starts with `u`s bytes followed by a NUL. -/
theorem cString_prefix (buf u : List Nat) (hul : u.length < buf.length)
    (hbytes : ∀ k, k < u.length → buf.getD k 0 = u.getD k 0)
    (hnz : ∀ x ∈ u, x ≠ 0)
    (h0 : buf.getD u.length 0 = 0) :
    cString buf 0 = u := by
  have hs1 : slice buf 0 (0 + u.length) = u :=
    slice_eq_list buf 0 u (by omega)
      (fun k hk => by rw [Nat.zero_add]; exact hbytes k hk)
  rw [Nat.zero_add] at hs1
  have hs2 := cString_eq_slice buf 0 u.length (Nat.zero_le _) hul
    (by rw [hs1]; exact hnz) h0
  rw [hs2, hs1]

/-- A read into an empty buffer whose bytes contain no newline and no
carriage return, short of filling the buffer: the whole chunk is kept as
the fragment and nothing is emitted. -/
theorem noNL_cycle_frag (st : PumpState) (w : List Nat)
    (ha : st.a = 0) (hb : st.b = 0) (hlen : st.buf.length = BUFSZ)
    (hno : ∀ j, j < w.length → w.getD j 0 ≠ 10 ∧ w.getD j 0 ≠ 13)
    (hw1 : 1 ≤ w.length) (hw2 : w.length ≤ BUFSZ - 2) :
    pumpCycle true st (ReadResult.ok w) = (⟨writeAt st.buf 0 w, 0, w.length⟩, []) := by
  have hB : BUFSZ = 4096 := rfl
  have htake : w.take (BUFSZ - 1) = w := List.take_of_length_le (by omega)
  have hscan : scanFrom true (writeAt st.buf 0 w) 0 0 w.length []
      = (writeAt st.buf 0 w, 0, []) :=
    scan_nochange w.length true _ 0 0 w.length [] rfl
      (fun j h1 h2 => by rw [getD_writeAt_front _ _ _ h2]; exact hno j h2)
  simp only [pumpCycle, hb, ha, Nat.sub_zero, htake, Nat.zero_add, processScan, hscan]
  rw [if_neg (by omega), if_pos (by omega)]
  rw [memmoveFront_zero]

/-- A read that exactly fills an empty buffer with newline-free,
CR-free bytes: the force-flush path emits the whole buffer as one line
and resets both cursors. -/
theorem noNL_cycle_forced (st : PumpState) (w : List Nat)
    (ha : st.a = 0) (hb : st.b = 0) (hlen : st.buf.length = BUFSZ)
    (hno : ∀ j, j < w.length → w.getD j 0 ≠ 10 ∧ w.getD j 0 ≠ 13)
    (hw : w.length = BUFSZ - 1) :
    pumpCycle true st (ReadResult.ok w)
      = (⟨(writeAt st.buf 0 w).set (BUFSZ - 1) 0, 0, 0⟩,
          [(cString ((writeAt st.buf 0 w).set (BUFSZ - 1) 0) 0, LineKind.forced)]) := by
  have hB : BUFSZ = 4096 := rfl
  have htake : w.take (BUFSZ - 1) = w := List.take_of_length_le (by omega)
  have hscan : scanFrom true (writeAt st.buf 0 w) 0 0 w.length []
      = (writeAt st.buf 0 w, 0, []) :=
    scan_nochange w.length true _ 0 0 w.length [] rfl
      (fun j h1 h2 => by rw [getD_writeAt_front _ _ _ h2]; exact hno j h2)
  simp only [pumpCycle, hb, ha, Nat.sub_zero, htake, Nat.zero_add, processScan, hscan]
  rw [if_pos ⟨trivial, hw⟩]
  simp

theorem getD_replicate (n a j : Nat) (h : j < n) : (List.replicate n a).getD j 0 = a := by
  rw [List.getD_eq_getElem _ _ (by simpa using h)]
  simp

theorem replicate_no_ctrl (n a : Nat) (ha : 9 < a ∧ a ≠ 10 ∧ a ≠ 13) :
    ∀ j, j < (List.replicate n a).length →
      (List.replicate n a).getD j 0 ≠ 10 ∧ (List.replicate n a).getD j 0 ≠ 13 := by
  intro j hj
  rw [List.length_replicate] at hj
  rw [getD_replicate n a j hj]
  exact ⟨ha.2.1, ha.2.2⟩

/-- One-step unfolding of the pump loop. -/
theorem pumpLoop_cons (lw : Bool) (st : PumpState) (acc : List EmitLine) (ev : PollEvent)
    (rest : List PollEvent) :
    pumpLoop lw st acc (ev :: rest) =
      (match ev.hupEv with
      | some (ReapResult.failed e) =>
          some ((readStep lw st ev).1, acc ++ (readStep lw st ev).2, PumpOutcome.waitFailed e)
      | some (ReapResult.reaped s) =>
          some ((readStep lw st ev).1, acc ++ (readStep lw st ev).2, PumpOutcome.reaped s)
      | some ReapResult.notYet =>
          pumpLoop lw (readStep lw st ev).1 (acc ++ (readStep lw st ev).2) rest
      | none => pumpLoop lw (readStep lw st ev).1 (acc ++ (readStep lw st ev).2) rest) := by
  rw [pumpLoop]

/-- C7: a child that writes 5000 bytes of ASCII 97 with no newline and
exits 0 produces exactly one forced-flush line of 4095 bytes (emitted
with the processed boundary at 0 and the write boundary at capacity-1,
after which both cursors reset to 0) and one final-flush line of the
remaining 905 bytes, and the translated result is the exit code 0. -/
theorem c7_forced_flush_example :
    runPump true false
        [⟨some (ReadResult.ok (List.replicate 4095 97)), none⟩,
         ⟨some (ReadResult.ok (List.replicate 905 97)), none⟩,
         ⟨none, some (ReapResult.reaped 0)⟩]
      = some ⟨[(List.replicate 4095 97, LineKind.forced),
               (List.replicate 905 97, LineKind.final)], [], 0, none⟩ ∧
    (pumpCycle true initPumpState (ReadResult.ok (List.replicate 4095 97))).1.a = 0 ∧
    (pumpCycle true initPumpState (ReadResult.ok (List.replicate 4095 97))).1.b = 0 := by
  have hB : BUFSZ = 4096 := rfl
  have hinit : initPumpState.buf.length = BUFSZ := by simp [initPumpState]
  have hcyc1 := noNL_cycle_forced initPumpState (List.replicate 4095 97) rfl rfl hinit
    (replicate_no_ctrl 4095 97 (by omega))
    (by rw [List.length_replicate]; omega)
  have hw1len : (writeAt initPumpState.buf 0 (List.replicate 4095 97)).length = BUFSZ := by
    rw [writeAt_length _ _ _ (by rw [hinit, List.length_replicate]; omega)]
    exact hinit
  have hbuf1len : ((writeAt initPumpState.buf 0 (List.replicate 4095 97)).set
      (BUFSZ - 1) 0).length = BUFSZ := by
    rw [List.length_set]
    exact hw1len
  have hline1 : cString ((writeAt initPumpState.buf 0 (List.replicate 4095 97)).set
      (BUFSZ - 1) 0) 0 = List.replicate 4095 97 := by
    apply cString_prefix
    · rw [hbuf1len, List.length_replicate]
      omega
    · intro k hk
      rw [List.length_replicate] at hk
      rw [getD_set_ne _ _ _ _ (by omega)]
      rw [getD_writeAt_front _ _ _ (by rw [List.length_replicate]; omega)]
    · intro x hx
      have h2 := List.eq_of_mem_replicate hx
      omega
    · rw [List.length_replicate]
      exact getD_set_self _ _ _ (by rw [hw1len]; omega)
  have hcyc2 := noNL_cycle_frag
    ⟨(writeAt initPumpState.buf 0 (List.replicate 4095 97)).set (BUFSZ - 1) 0, 0, 0⟩
    (List.replicate 905 97) rfl rfl hbuf1len
    (replicate_no_ctrl 905 97 (by omega))
    (by rw [List.length_replicate]; omega) (by rw [List.length_replicate]; omega)
  have hbuf2len : (writeAt ((writeAt initPumpState.buf 0 (List.replicate 4095 97)).set
      (BUFSZ - 1) 0) 0 (List.replicate 905 97)).length = BUFSZ := by
    rw [writeAt_length _ _ _ (by rw [hbuf1len, List.length_replicate]; omega)]
    exact hbuf1len
  have hline2 : cString ((writeAt ((writeAt initPumpState.buf 0 (List.replicate 4095 97)).set
      (BUFSZ - 1) 0) 0 (List.replicate 905 97)).set 905 0) 0
      = List.replicate 905 97 := by
    apply cString_prefix
    · rw [List.length_set, hbuf2len, List.length_replicate]
      omega
    · intro k hk
      rw [List.length_replicate] at hk
      rw [getD_set_ne _ _ _ _ (by omega)]
      rw [getD_writeAt_front _ _ _ (by rw [List.length_replicate]; omega)]
    · intro x hx
      have h2 := List.eq_of_mem_replicate hx
      omega
    · rw [List.length_replicate]
      exact getD_set_self _ _ _ (by rw [hbuf2len]; omega)
  refine ⟨?_, by rw [hcyc1], by rw [hcyc1]⟩
  have hloop : pumpLoop true initPumpState []
      [⟨some (ReadResult.ok (List.replicate 4095 97)), none⟩,
       ⟨some (ReadResult.ok (List.replicate 905 97)), none⟩,
       ⟨none, some (ReapResult.reaped 0)⟩]
      = some (⟨writeAt ((writeAt initPumpState.buf 0 (List.replicate 4095 97)).set
            (BUFSZ - 1) 0) 0 (List.replicate 905 97), 0, (List.replicate 905 97).length⟩,
          [(List.replicate 4095 97, LineKind.forced)], PumpOutcome.reaped 0) := by
    rw [pumpLoop_cons]
    dsimp only [readStep]
    rw [hcyc1, hline1]
    dsimp only
    rw [pumpLoop_cons]
    dsimp only [readStep]
    rw [hcyc2]
    dsimp only
    rw [pumpLoop_cons]
    dsimp only [readStep]
    simp only [List.nil_append, List.append_nil]
  rw [runPump, hloop]
  simp only [Option.map_some']
  rw [Option.some_inj]
  have htr : translateStatus 0 = 0 := rfl
  have hsum : summaryFor 0 = [] := rfl
  simp only [parentFinish, htr, hsum]
  have hne : ¬ ((⟨writeAt ((writeAt initPumpState.buf 0 (List.replicate 4095 97)).set
        (BUFSZ - 1) 0) 0 (List.replicate 905 97), 0,
        (List.replicate 905 97).length⟩ : PumpState).a
      = (⟨writeAt ((writeAt initPumpState.buf 0 (List.replicate 4095 97)).set
        (BUFSZ - 1) 0) 0 (List.replicate 905 97), 0,
        (List.replicate 905 97).length⟩ : PumpState).b) := by
    dsimp only
    rw [List.length_replicate]
    omega
  rw [if_pos hne]
  rw [List.length_replicate, hline2]
  simp only [if_true, Bool.false_eq_true, if_false, List.singleton_append]

theorem nulMid_no_ctrl (u v : List Nat)
    (hu : ∀ x ∈ u, x ≠ 0 ∧ x ≠ 10 ∧ x ≠ 13) (hv : ∀ x ∈ v, x ≠ 10 ∧ x ≠ 13) :
    ∀ j, j < (u ++ 0 :: v).length →
      (u ++ 0 :: v).getD j 0 ≠ 10 ∧ (u ++ 0 :: v).getD j 0 ≠ 13 := by
  intro j hj
  rw [List.length_append, List.length_cons] at hj
  by_cases hju : j < u.length
  · rw [List.getD_append u (0 :: v) 0 j hju]
    have h2 := hu _ (getD_mem u j hju)
    exact ⟨h2.2.1, h2.2.2⟩
  · rw [List.getD_append_right u (0 :: v) 0 j (by omega)]
    by_cases hjd : j = u.length
    · rw [hjd, Nat.sub_self, List.getD_cons_zero]
      exact ⟨by omega, by omega⟩
    · have h3 : j - u.length = (j - u.length - 1) + 1 := by omega
      rw [h3, List.getD_cons_succ]
      exact hv _ (getD_mem v _ (by omega))

theorem nulMid_getD_u (u v : List Nat) (hw : (u ++ 0 :: v).length ≤ BUFSZ) :
    ∀ k, k < u.length →
      (writeAt initPumpState.buf 0 (u ++ 0 :: v)).getD k 0 = u.getD k 0 := by
  intro k hk
  rw [getD_writeAt_front _ _ _ (by rw [List.length_append, List.length_cons]; omega)]
  exact List.getD_append u (0 :: v) 0 k hk

theorem nulMid_getD_nul (u v : List Nat) (hw : (u ++ 0 :: v).length ≤ BUFSZ) :
    (writeAt initPumpState.buf 0 (u ++ 0 :: v)).getD u.length 0 = 0 := by
  rw [getD_writeAt_front _ _ _ (by rw [List.length_append, List.length_cons]; omega)]
  rw [List.getD_append_right u (0 :: v) 0 u.length (le_refl _), Nat.sub_self]
  rfl

/-- C10: a NUL byte written by the child truncates the emitted line in
each of the three emit paths: the per-line path (NUL inside a
newline-terminated segment), the force-flush path (NUL inside a full
terminator-less buffer), and the final-flush path (NUL inside the
leftover fragment flushed after the child is reaped).  In each case the
emitted line is exactly the bytes before the NUL. -/
theorem c10_nul_truncation :
    (∀ u v t : List Nat, (∀ x ∈ u, x ≠ 0 ∧ x ≠ 10 ∧ x ≠ 13) → (∀ x ∈ v, x ≠ 10) →
      (u ++ 0 :: v ++ 10 :: t).length ≤ BUFSZ - 1 →
      ∃ rest : List EmitLine,
        (pumpCycle true initPumpState (ReadResult.ok (u ++ 0 :: v ++ 10 :: t))).2
          = (u, LineKind.newline) :: rest) ∧
    (∀ u v : List Nat, (∀ x ∈ u, x ≠ 0 ∧ x ≠ 10 ∧ x ≠ 13) →
      (∀ x ∈ v, x ≠ 10 ∧ x ≠ 13) →
      (u ++ 0 :: v).length = BUFSZ - 1 →
      (pumpCycle true initPumpState (ReadResult.ok (u ++ 0 :: v))).2
        = [(u, LineKind.forced)]) ∧
    (∀ u v : List Nat, (∀ x ∈ u, x ≠ 0 ∧ x ≠ 10 ∧ x ≠ 13) →
      (∀ x ∈ v, x ≠ 10 ∧ x ≠ 13) →
      (u ++ 0 :: v).length ≤ BUFSZ - 2 →
      runPump true false [⟨some (ReadResult.ok (u ++ 0 :: v)), some (ReapResult.reaped 0)⟩]
        = some ⟨[(u, LineKind.final)], [], 0, none⟩) := by
  have hB : BUFSZ = 4096 := rfl
  have hinit : initPumpState.buf.length = BUFSZ := by simp [initPumpState]
  refine ⟨?_, ?_, ?_⟩
  · intro u v t hu hv hlen
    exact firstLine_truncated u v t 0 (Or.inl rfl) hu hv hlen
  · intro u v hu hv hwlen
    have hulen : u.length < (u ++ 0 :: v).length := by
      rw [List.length_append, List.length_cons]
      omega
    have hbw : (writeAt initPumpState.buf 0 (u ++ 0 :: v)).length = BUFSZ := by
      rw [writeAt_length _ _ _ (by rw [hinit]; omega)]
      exact hinit
    have hcyc := noNL_cycle_forced initPumpState (u ++ 0 :: v) rfl rfl hinit
      (nulMid_no_ctrl u v hu hv) hwlen
    rw [hcyc]
    have hcs : cString ((writeAt initPumpState.buf 0 (u ++ 0 :: v)).set (BUFSZ - 1) 0) 0
        = u := by
      apply cString_prefix
      · rw [List.length_set, hbw]
        omega
      · intro k hk
        rw [getD_set_ne _ _ _ _ (by omega)]
        exact nulMid_getD_u u v (by omega) k hk
      · intro x hx
        exact (hu x hx).1
      · rw [getD_set_ne _ _ _ _ (by omega)]
        exact nulMid_getD_nul u v (by omega)
    rw [hcs]
  · intro u v hu hv hwlen
    have hulen : u.length < (u ++ 0 :: v).length := by
      rw [List.length_append, List.length_cons]
      omega
    have hw1 : 1 ≤ (u ++ 0 :: v).length := by
      rw [List.length_append, List.length_cons]
      omega
    have hbw : (writeAt initPumpState.buf 0 (u ++ 0 :: v)).length = BUFSZ := by
      rw [writeAt_length _ _ _ (by rw [hinit]; omega)]
      exact hinit
    have hcyc := noNL_cycle_frag initPumpState (u ++ 0 :: v) rfl rfl hinit
      (nulMid_no_ctrl u v hu hv) hw1 hwlen
    have hcs : cString ((writeAt initPumpState.buf 0 (u ++ 0 :: v)).set
        (u ++ 0 :: v).length 0) 0 = u := by
      apply cString_prefix
      · rw [List.length_set, hbw]
        omega
      · intro k hk
        rw [getD_set_ne _ _ _ _ (by omega)]
        exact nulMid_getD_u u v (by omega) k hk
      · intro x hx
        exact (hu x hx).1
      · rw [getD_set_ne _ _ _ _ (by omega)]
        exact nulMid_getD_nul u v (by omega)
    rw [runPump, pumpLoop_cons]
    dsimp only [readStep]
    rw [hcyc]
    simp only [Option.map_some', List.nil_append]
    rw [Option.some_inj]
    have htr : translateStatus 0 = 0 := rfl
    have hsum : summaryFor 0 = [] := rfl
    simp only [parentFinish, htr, hsum]
    have hne : ¬ ((⟨writeAt initPumpState.buf 0 (u ++ 0 :: v), 0,
        (u ++ 0 :: v).length⟩ : PumpState).a
        = (⟨writeAt initPumpState.buf 0 (u ++ 0 :: v), 0,
        (u ++ 0 :: v).length⟩ : PumpState).b) := by
      dsimp only
      omega
    rw [if_pos hne]
    rw [hcs]
    simp only [if_true, Bool.false_eq_true, if_false, List.nil_append]

/-- C9: a captured line of the form `u ++ CR ++ v ++ LF`, with at least
one non-newline byte between the carriage return and the newline, is
emitted truncated at the carriage return: the emitted line is exactly
`u`, so the bytes of `v` never reach the log sink (the carriage return
is rewritten to a NUL terminator, not merely stripped). -/
theorem c9_cr_truncation (u v t : List Nat)
    (hu : ∀ x ∈ u, x ≠ 0 ∧ x ≠ 10 ∧ x ≠ 13)
    (hv : ∀ x ∈ v, x ≠ 10) (hvne : v ≠ [])
    (hlen : (u ++ 13 :: v ++ 10 :: t).length ≤ BUFSZ - 1) :
    ∃ rest : List EmitLine,
      (pumpCycle true initPumpState (ReadResult.ok (u ++ 13 :: v ++ 10 :: t))).2
        = (u, LineKind.newline) :: rest :=
  firstLine_truncated u v t 13 (Or.inr rfl) hu hv hlen

/-- C2 (amended): for every byte stream free of NUL and carriage-return
bytes — delivered as any sequence of successful reads that fit the
buffer, ending with a successful reap — the concatenation of all
emitted lines with their stripped newline terminators reinserted
(forced and final flushes stripped no terminator) equals the original
byte stream: no byte is duplicated or lost across reads, force-flushes,
and the final flush. -/
theorem c2_round_trip_clean (evs : List PollEvent) (hasSlot : Bool)
    (hcl : cleanEvs evs = true) (hfit : fits initPumpState evs = true)
    (hterm : evs.dropLast.all nonTerminal = true)
    (hre : endsReaped evs = true) :
    (runPump true hasSlot evs).map (fun r => reconstruct r.lines) = some (chunksOf evs) := by
  rw [endsReaped] at hre
  cases hmatch : pumpLoop true initPumpState [] evs with
  | none => rw [hmatch] at hre; simp at hre
  | some r =>
    obtain ⟨st2, L, out⟩ := r
    cases out with
    | waitFailed e => rw [hmatch] at hre; simp at hre
    | reaped s => exact runPump_clean evs hasSlot st2 L s hcl hfit hterm hmatch

/-- Witness for the amended C2 round trip on a concrete stream split
across two reads with a leftover fragment flushed at the end. -/
theorem c2_round_trip_clean_witness :
    (cleanEvs [⟨some (ReadResult.ok [104, 105]), none⟩,
        ⟨some (ReadResult.ok [10, 120]), some (ReapResult.reaped 0)⟩] = true
      ∧ fits initPumpState [⟨some (ReadResult.ok [104, 105]), none⟩,
        ⟨some (ReadResult.ok [10, 120]), some (ReapResult.reaped 0)⟩] = true
      ∧ [⟨some (ReadResult.ok [104, 105]), none⟩,
        ⟨some (ReadResult.ok [10, 120]), some (ReapResult.reaped 0)⟩].dropLast.all
          nonTerminal = true
      ∧ endsReaped [⟨some (ReadResult.ok [104, 105]), none⟩,
        ⟨some (ReadResult.ok [10, 120]), some (ReapResult.reaped 0)⟩] = true) ∧
    (runPump true false [⟨some (ReadResult.ok [104, 105]), none⟩,
        ⟨some (ReadResult.ok [10, 120]), some (ReapResult.reaped 0)⟩]).map
      (fun r => reconstruct r.lines)
      = some (chunksOf [⟨some (ReadResult.ok [104, 105]), none⟩,
        ⟨some (ReadResult.ok [10, 120]), some (ReapResult.reaped 0)⟩]) :=
  ⟨⟨by decide, by decide, by decide, by decide⟩,
    c2_round_trip_clean _ false (by decide) (by decide) (by decide) (by decide)⟩

/-- Counterexample to C2 as stated: the stream `"a\rb\n"` contains a
carriage return mid-line; the pump emits the single line `"a"` (the
carriage return was rewritten to NUL, truncating the line), so the
reconstruction is `"a\n"`, not the original four bytes — the byte `b`
is lost. -/
theorem c2_counterexample :
    (runPump true false [⟨some (ReadResult.ok [97, 13, 98, 10]),
        some (ReapResult.reaped 0)⟩]).map (fun r => reconstruct r.lines)
      = some [97, 10] ∧
    chunksOf [⟨some (ReadResult.ok [97, 13, 98, 10]), some (ReapResult.reaped 0)⟩]
      = [97, 13, 98, 10] ∧
    ([97, 10] : List Nat) ≠ [97, 13, 98, 10] := by
  refine ⟨by decide, by decide, by decide⟩

/-- C3 (amended): a read result of 0 contributes no new line data and
leaves the pump state — in particular the buffered fragment — exactly
unchanged.  A read that fails (-1) does NOT abort the pump and surfaces
no error: the -1 is added to the fragment length, so the cycle
completes normally with the fragment shortened by one byte (its last
byte is dropped when one exists). -/
theorem c3_read_zero_and_error (lw : Bool) (st : PumpState)
    (ha : st.a = 0) (hb : st.b ≤ BUFSZ - 2) (hlen : st.buf.length = BUFSZ)
    (hfr : ∀ j, j < st.b → st.buf.getD j 0 ≠ 10 ∧ st.buf.getD j 0 ≠ 13) :
    pumpCycle lw st (ReadResult.ok []) = (st, []) ∧
    pumpCycle lw st ReadResult.err = (⟨st.buf, 0, st.b - 1⟩, []) := by
  have hB : BUFSZ = 4096 := rfl
  obtain ⟨sbuf, sa, sb⟩ := st
  have hsa : sa = 0 := ha
  subst hsa
  have hb2 : sb ≤ BUFSZ - 2 := hb
  have hfr2 : ∀ j, j < sb → sbuf.getD j 0 ≠ 10 ∧ sbuf.getD j 0 ≠ 13 := hfr
  constructor
  · have hscan : scanFrom lw sbuf 0 0 sb [] = (sbuf, 0, []) :=
      scan_nochange sb lw sbuf 0 0 sb [] rfl (fun j h1 h2 => hfr2 j h2)
    simp only [pumpCycle, List.take_nil, writeAt_nil, List.length_nil, Nat.add_zero,
      processScan, hscan]
    rw [if_neg (by omega)]
    by_cases hb0 : sb = 0
    · rw [if_neg (by omega)]
      rw [hb0]
    · rw [if_pos (by omega)]
      rw [memmoveFront_zero, Nat.sub_zero]
  · have hsz : ((-1 : Int) + ((sb : Nat) : Int)).toNat = sb - 1 := by omega
    have hscan : scanFrom lw sbuf 0 0 (sb - 1) [] = (sbuf, 0, []) :=
      scan_nochange (sb - 1) lw sbuf 0 0 (sb - 1) [] rfl (fun j h1 h2 => hfr2 j (by omega))
    simp only [pumpCycle, hsz, processScan, hscan]
    rw [if_neg (by omega)]
    by_cases hb1 : sb - 1 = 0
    · rw [if_neg (by omega)]
      rw [hb1]
    · rw [if_pos (by omega)]
      rw [memmoveFront_zero, Nat.sub_zero]

/-- Witness for the amended C3 on a concrete state holding the two-byte
fragment `"xy"`: a zero-length read leaves it intact, a failed read
silently drops the trailing `y`. -/
theorem c3_read_zero_and_error_witness :
    pumpCycle true ⟨120 :: 121 :: List.replicate 4094 0, 0, 2⟩ (ReadResult.ok [])
      = (⟨120 :: 121 :: List.replicate 4094 0, 0, 2⟩, []) ∧
    pumpCycle true ⟨120 :: 121 :: List.replicate 4094 0, 0, 2⟩ ReadResult.err
      = (⟨120 :: 121 :: List.replicate 4094 0, 0, 1⟩, []) :=
  c3_read_zero_and_error true ⟨120 :: 121 :: List.replicate 4094 0, 0, 2⟩ rfl
    (by decide) (by simp only [List.length_cons, List.length_replicate, BUFSZ]) (by decide)

/-- Counterexample to C3 as stated: after buffering `"xy"`, a failed
read does not abort the pump or surface an I/O error — the run goes on
to a normal reap with result 0 — and the previously buffered fragment
is altered: only `"x"` is ever emitted, the buffered `y` is dropped. -/
theorem c3_counterexample :
    runPump true false
        [⟨some (ReadResult.ok [120, 121]), none⟩,
         ⟨some ReadResult.err, none⟩,
         ⟨some (ReadResult.ok [10]), some (ReapResult.reaped 0)⟩]
      = some ⟨[([120], LineKind.newline)], [], 0, none⟩ ∧
    [([120], LineKind.newline)] ≠ [([120, 121], LineKind.newline)] := by
  refine ⟨by decide, by decide⟩

/-- C4: with no caller status slot, a child that exits normally with
code N (0 ≤ N ≤ 255) yields translated result N, and a child killed by
any signal yields the single negative value -ECHILD = -10, distinct
from every valid exit code. -/
theorem c4_status_translation :
    (∀ (lw : Bool) (evs : List PollEvent) (st2 : PumpState) (L : List EmitLine) (N : Nat),
      N ≤ 255 →
      pumpLoop lw initPumpState [] evs = some (st2, L, PumpOutcome.reaped (256 * N)) →
      (runPump lw false evs).map ParentResult.rc = some ((N : Nat) : Int)) ∧
    (∀ (lw : Bool) (evs : List PollEvent) (st2 : PumpState) (L : List EmitLine) (s : Nat),
      WIFSIGNALED s = true →
      pumpLoop lw initPumpState [] evs = some (st2, L, PumpOutcome.reaped s) →
      (runPump lw false evs).map ParentResult.rc = some (-10)) ∧
    ((-10 : Int) < 0 ∧ ∀ N : Nat, N ≤ 255 → (-10 : Int) ≠ ((N : Nat) : Int)) := by
  refine ⟨?_, ?_, by omega, ?_⟩
  · intro lw evs st2 L N hN hloop
    rw [runPump_rc lw evs st2 L (256 * N) hloop, translate_exit N hN]
  · intro lw evs st2 L s hs hloop
    rw [runPump_rc lw evs st2 L s hloop, translate_signal s hs]
  · intro N hN
    omega

/-- Witness for C4 at exit code 7 and at signal 9. -/
theorem c4_status_translation_witness :
    (7 : Nat) ≤ 255 ∧
    (runPump true false [⟨none, some (ReapResult.reaped (256 * 7))⟩]).map ParentResult.rc
      = some ((7 : Nat) : Int) ∧
    WIFSIGNALED 9 = true ∧
    (runPump true false [⟨none, some (ReapResult.reaped 9)⟩]).map ParentResult.rc
      = some (-10) :=
  ⟨by omega,
   c4_status_translation.1 true [⟨none, some (ReapResult.reaped (256 * 7))⟩]
     initPumpState [] 7 (by omega) rfl,
   by decide,
   c4_status_translation.2.1 true [⟨none, some (ReapResult.reaped 9)⟩]
     initPumpState [] 9 (by decide) rfl⟩

/-- C5 (amended): when the caller supplies a status slot, the raw OS
status is stored into the slot, and the integer result returned by the
operation is 0 — not the raw status. -/
theorem c5_slot_semantics (lw : Bool) (evs : List PollEvent) (st2 : PumpState)
    (L : List EmitLine) (s : Nat)
    (hloop : pumpLoop lw initPumpState [] evs = some (st2, L, PumpOutcome.reaped s)) :
    (runPump lw true evs).map (fun r => (r.rawSlot, r.rc)) = some (some s, 0) :=
  runPump_slot lw evs st2 L s hloop

/-- Witness for the amended C5 at raw status 768 (exit code 3). -/
theorem c5_slot_semantics_witness :
    (runPump true true [⟨none, some (ReapResult.reaped 768)⟩]).map
      (fun r => (r.rawSlot, r.rc)) = some (some 768, 0) :=
  c5_slot_semantics true [⟨none, some (ReapResult.reaped 768)⟩] initPumpState [] 768 rfl

/-- Counterexample to C5 as stated: with a status slot supplied and a
child whose raw status is 768, the operation returns 0, not 768 — the
raw status only reaches the caller through the slot. -/
theorem c5_counterexample :
    runPump true true [⟨none, some (ReapResult.reaped 768)⟩]
      = some ⟨[], [SummaryEv.exited 3], 0, some 768⟩ ∧
    ((0 : Int) ≠ (768 : Int)) := by
  refine ⟨by decide, by decide⟩

/-- C8: the line-buffer invariant processed-boundary ≤ write-boundary ≤
capacity holds of the initial state, is re-established by every pump
cycle (scan, force-flush, compaction, and reset all preserve it), and
the capacity (the buffer length, fixed at 4096) is preserved. -/
theorem c8_buffer_invariant :
    BufInv initPumpState ∧
    (∀ (lw : Bool) (st : PumpState) (rr : ReadResult),
      BufInv st → BufInv (pumpCycle lw st rr).1) ∧
    (∀ st : PumpState, BufInv st →
      st.a ≤ st.b ∧ st.b ≤ BUFSZ ∧ st.buf.length = BUFSZ) := by
  refine ⟨bufInv_init, pumpCycle_bufInv, ?_⟩
  intro st h
  have hB : BUFSZ = 4096 := rfl
  obtain ⟨h1, h2, h3⟩ := h
  exact ⟨by omega, by omega, h3⟩

/-- Witness for C8: the invariant holds initially, survives a cycle
with a failed read, and implies the claim's ordering of the cursors. -/
theorem c8_buffer_invariant_witness :
    BufInv (pumpCycle true initPumpState ReadResult.err).1 ∧
    (initPumpState.a ≤ initPumpState.b ∧ initPumpState.b ≤ BUFSZ ∧
      initPumpState.buf.length = BUFSZ) :=
  ⟨c8_buffer_invariant.2.1 true initPumpState ReadResult.err bufInv_init,
   c8_buffer_invariant.2.2 initPumpState bufInv_init⟩

/-- Witness for C9 on the line `"a\rb\n"`: the emitted line is `"a"`. -/
theorem c9_cr_truncation_witness :
    ∃ rest : List EmitLine,
      (pumpCycle true initPumpState (ReadResult.ok ([97] ++ 13 :: [98] ++ 10 :: []))).2
        = ([97], LineKind.newline) :: rest :=
  c9_cr_truncation [97] [98] [] (by decide) (by decide) (by decide) (by decide)

/-- Witness for C10 in all three emit paths, at concrete inputs. -/
theorem c10_nul_truncation_witness :
    (∃ rest : List EmitLine,
      (pumpCycle true initPumpState (ReadResult.ok ([97] ++ 0 :: [98] ++ 10 :: []))).2
        = ([97], LineKind.newline) :: rest) ∧
    (pumpCycle true initPumpState
        (ReadResult.ok ([97] ++ 0 :: List.replicate 4093 98))).2
      = [([97], LineKind.forced)] ∧
    runPump true false [⟨some (ReadResult.ok ([97] ++ 0 :: [98])),
        some (ReapResult.reaped 0)⟩]
      = some ⟨[([97], LineKind.final)], [], 0, none⟩ :=
  ⟨c10_nul_truncation.1 [97] [98] [] (by decide) (by decide) (by decide),
   c10_nul_truncation.2.1 [97] (List.replicate 4093 98) (by decide)
     (by intro x hx; have h2 := List.eq_of_mem_replicate hx; omega)
     (by simp only [List.length_append, List.length_cons, List.length_nil,
       List.length_replicate, BUFSZ]),
   c10_nul_truncation.2.2 [97] [98] (by decide) (by decide) (by decide)⟩

theorem count_map_const {α : Type} (L : List α) (c e : Ev) (h : e ≠ c) :
    (L.map (fun _ => c)).count e = 0 := by
  rw [List.count_eq_zero]
  intro hx
  obtain ⟨x, hx1, hx2⟩ := List.mem_map.mp hx
  exact h hx2.symm

/-- In a trace of the form `lockAcq :: mid ++ [lockRel]` where `mid`
contains no lock release and pump starts and ends are balanced over the
whole trace, the lock is held whenever the pump is open. -/
theorem lockHeld_shape (mid : List Ev)
    (hrel : Ev.lockRel ∉ mid)
    (hbal : (Ev.lockAcq :: (mid ++ [Ev.lockRel])).count Ev.pumpStart
          = (Ev.lockAcq :: (mid ++ [Ev.lockRel])).count Ev.pumpEnd) :
    ∀ n, pumpOpenAt (Ev.lockAcq :: (mid ++ [Ev.lockRel])) n →
      lockHeldAt (Ev.lockAcq :: (mid ++ [Ev.lockRel])) n := by
  intro n hopen
  match n with
  | 0 =>
    exfalso
    unfold pumpOpenAt at hopen
    simp at hopen
  | n + 1 =>
    by_cases hn : n ≤ mid.length
    · unfold lockHeldAt
      rw [List.take_cons]
      simp only [Nat.add_sub_cancel]
      have htake : (mid ++ [Ev.lockRel]).take n = mid.take n := by
        rw [List.take_append_eq_append_take, Nat.sub_eq_zero_of_le hn, List.take_zero,
          List.append_nil]
      rw [htake]
      have hrel2 : (mid.take n).count Ev.lockRel = 0 := by
        rw [List.count_eq_zero]
        intro hx
        exact hrel ((List.take_sublist n mid).subset hx)
      rw [List.count_cons, List.count_cons, hrel2]
      simp
      omega
    · exfalso
      have htk : (Ev.lockAcq :: (mid ++ [Ev.lockRel])).take (n + 1)
          = Ev.lockAcq :: (mid ++ [Ev.lockRel]) := by
        apply List.take_of_length_le
        simp
        omega
      unfold pumpOpenAt at hopen
      rw [htk, hbal] at hopen
      omega

/-- C1 (amended): the child branch of a fork releases the process-wide
serialization lock as its very first action, but the parent branch does
not: on every completed launch, the lock is held at every point at
which the pump loop is open, because the parent only releases it in the
cleanup after the pump returns. -/
theorem c1_lock_held_through_pump (env : SetupEnv) (iq lw hs : Bool)
    (evs : List PollEvent) (rc : Int) (tr : List Ev) (r : ParentResult)
    (h : androidForkExecvp env iq lw hs evs = some (rc, tr, some r)) :
    childBranchTrace.head? = some Ev.lockRel ∧
    ∀ n, pumpOpenAt tr n → lockHeldAt tr n := by
  obtain ⟨lrc, mok, gok, sok, fok⟩ := env
  by_cases hl : lrc ≠ 0
  · simp [androidForkExecvp, hl] at h
  · push_neg at hl
    subst hl
    cases mok with
    | false => simp [androidForkExecvp] at h
    | true =>
    cases gok with
    | false => simp [androidForkExecvp] at h
    | true =>
    cases sok with
    | false => simp [androidForkExecvp] at h
    | true =>
    cases fok with
    | false => simp [androidForkExecvp] at h
    | true =>
      refine ⟨rfl, ?_⟩
      simp only [androidForkExecvp, ne_eq, not_true_eq_false, if_neg, Bool.not_true,
        Bool.false_eq_true, if_false, ite_false, ite_true, Option.map_eq_some'] at h
      obtain ⟨r0, hrun, hf⟩ := h
      have htr : tr =
          [Ev.lockAcq, Ev.openMaster, Ev.openSlave, Ev.sigBlock, Ev.forked, Ev.closeSlave]
            ++ (if iq then [Ev.ignInstall] else [])
            ++ [Ev.pumpStart]
            ++ r0.lines.map (fun _ => Ev.log Tag.child)
            ++ r0.summaries.map (fun _ => Ev.log Tag.wrapper)
            ++ [Ev.pumpEnd]
            ++ (if iq then [Ev.ignRestore] else [])
            ++ [Ev.sigRestore, Ev.closeMaster, Ev.lockRel] := by
        have h2 := congrArg (fun p => p.2.1) hf
        exact h2.symm
      have hshape :
          [Ev.lockAcq, Ev.openMaster, Ev.openSlave, Ev.sigBlock, Ev.forked, Ev.closeSlave]
            ++ (if iq then [Ev.ignInstall] else [])
            ++ [Ev.pumpStart]
            ++ r0.lines.map (fun _ => Ev.log Tag.child)
            ++ r0.summaries.map (fun _ => Ev.log Tag.wrapper)
            ++ [Ev.pumpEnd]
            ++ (if iq then [Ev.ignRestore] else [])
            ++ [Ev.sigRestore, Ev.closeMaster, Ev.lockRel]
          = Ev.lockAcq ::
            (([Ev.openMaster, Ev.openSlave, Ev.sigBlock, Ev.forked, Ev.closeSlave]
              ++ (if iq then [Ev.ignInstall] else [])
              ++ [Ev.pumpStart]
              ++ r0.lines.map (fun _ => Ev.log Tag.child)
              ++ r0.summaries.map (fun _ => Ev.log Tag.wrapper)
              ++ [Ev.pumpEnd]
              ++ (if iq then [Ev.ignRestore] else [])
              ++ [Ev.sigRestore, Ev.closeMaster]) ++ [Ev.lockRel]) := by
        simp
      rw [htr, hshape]
      apply lockHeld_shape
      · intro hx
        simp only [List.mem_append, List.mem_cons, List.mem_singleton, List.mem_map] at hx
        cases iq <;> simp_all
      · cases iq <;>
          simp [List.count_append, List.count_cons, List.count_replicate]

/-- Witness for the amended C1 on a concrete completed launch: the
child releases first, and at the point where the pump has started (7
events in) the lock is held. -/
theorem c1_lock_held_through_pump_witness :
    childBranchTrace.head? = some Ev.lockRel ∧
    lockHeldAt [Ev.lockAcq, Ev.openMaster, Ev.openSlave, Ev.sigBlock, Ev.forked,
      Ev.closeSlave, Ev.pumpStart, Ev.pumpEnd, Ev.sigRestore, Ev.closeMaster,
      Ev.lockRel] 7 :=
  ⟨(c1_lock_held_through_pump ⟨0, true, true, true, true⟩ false true false
      [⟨none, some (ReapResult.reaped 0)⟩] 0 [Ev.lockAcq, Ev.openMaster, Ev.openSlave, Ev.sigBlock, Ev.forked,
        Ev.closeSlave, Ev.pumpStart, Ev.pumpEnd, Ev.sigRestore, Ev.closeMaster,
        Ev.lockRel] ⟨[], [], 0, none⟩ (by decide)).1,
   (c1_lock_held_through_pump ⟨0, true, true, true, true⟩ false true false
      [⟨none, some (ReapResult.reaped 0)⟩] 0 [Ev.lockAcq, Ev.openMaster, Ev.openSlave, Ev.sigBlock, Ev.forked,
        Ev.closeSlave, Ev.pumpStart, Ev.pumpEnd, Ev.sigRestore, Ev.closeMaster,
        Ev.lockRel] ⟨[], [], 0, none⟩ (by decide)).2
     7 (by decide)⟩

/-- Counterexample to C1 as stated: on a concrete successful launch the
parent's trace is lockAcq, ..., forked, closeSlave, pumpStart, pumpEnd,
sigRestore, closeMaster, lockRel — no lock release occurs between the
fork and the start of the pump loop, and at a point where the pump loop
is open the lock is still held. -/
theorem c1_counterexample :
    androidForkExecvp ⟨0, true, true, true, true⟩ false true false
        [⟨none, some (ReapResult.reaped 0)⟩]
      = some (0, [Ev.lockAcq, Ev.openMaster, Ev.openSlave, Ev.sigBlock, Ev.forked,
          Ev.closeSlave, Ev.pumpStart, Ev.pumpEnd, Ev.sigRestore, Ev.closeMaster,
          Ev.lockRel], some ⟨[], [], 0, none⟩) ∧
    Ev.lockRel ∉ ([Ev.lockAcq, Ev.openMaster, Ev.openSlave, Ev.sigBlock, Ev.forked,
      Ev.closeSlave, Ev.pumpStart] : List Ev) ∧
    pumpOpenAt [Ev.lockAcq, Ev.openMaster, Ev.openSlave, Ev.sigBlock, Ev.forked,
      Ev.closeSlave, Ev.pumpStart, Ev.pumpEnd, Ev.sigRestore, Ev.closeMaster,
      Ev.lockRel] 7 ∧
    lockHeldAt [Ev.lockAcq, Ev.openMaster, Ev.openSlave, Ev.sigBlock, Ev.forked,
      Ev.closeSlave, Ev.pumpStart, Ev.pumpEnd, Ev.sigRestore, Ev.closeMaster,
      Ev.lockRel] 7 := by
  refine ⟨by decide, by decide, by decide, by decide⟩

/-- C6 (amended): every setup-phase failure leaves no pump result and no
child-tagged log record, closes every descriptor opened on that path,
and returns a nonzero result: -1 for terminal-allocation and fork
failures, but the positive lock error code (not a negative value) when
acquiring the serialization lock fails. -/
theorem c6_setup_failure_cleanup (env : SetupEnv) (iq lw hs : Bool) (evs : List PollEvent)
    (hfail : env.lockRc ≠ 0 ∨ env.masterOk = false ∨ env.grantOk = false
      ∨ env.slaveOk = false ∨ env.forkOk = false) :
    ∃ rc tr, androidForkExecvp env iq lw hs evs = some (rc, tr, none) ∧
      ((env.lockRc ≠ 0 ∧ rc = (env.lockRc : Int)) ∨ rc = -1) ∧
      Ev.log Tag.child ∉ tr ∧
      (Ev.openMaster ∈ tr → Ev.closeMaster ∈ tr) ∧
      (Ev.openSlave ∈ tr → Ev.closeSlave ∈ tr) := by
  obtain ⟨lrc, mok, gok, sok, fok⟩ := env
  by_cases hl : lrc ≠ 0
  · exact ⟨(lrc : Int), [Ev.log Tag.wrapper], by simp [androidForkExecvp, hl],
      Or.inl ⟨hl, rfl⟩, by decide, by decide, by decide⟩
  · push_neg at hl
    subst hl
    cases mok with
    | false =>
      exact ⟨-1, [Ev.lockAcq, Ev.log Tag.wrapper, Ev.lockRel],
        by simp [androidForkExecvp], Or.inr rfl, by decide, by decide, by decide⟩
    | true =>
    cases gok with
    | false =>
      exact ⟨-1, [Ev.lockAcq, Ev.openMaster, Ev.log Tag.wrapper, Ev.closeMaster, Ev.lockRel],
        by simp [androidForkExecvp], Or.inr rfl, by decide, by decide, by decide⟩
    | true =>
    cases sok with
    | false =>
      exact ⟨-1, [Ev.lockAcq, Ev.openMaster, Ev.log Tag.wrapper, Ev.closeMaster, Ev.lockRel],
        by simp [androidForkExecvp], Or.inr rfl, by decide, by decide, by decide⟩
    | true =>
    cases fok with
    | false =>
      exact ⟨-1, [Ev.lockAcq, Ev.openMaster, Ev.openSlave, Ev.sigBlock, Ev.forkFail,
          Ev.closeSlave, Ev.log Tag.wrapper, Ev.sigRestore, Ev.closeMaster, Ev.lockRel],
        by simp [androidForkExecvp], Or.inr rfl, by decide, by decide, by decide⟩
    | true =>
      exfalso
      rcases hfail with h1 | h1 | h1 | h1 | h1 <;> simp_all

/-- Witness for the amended C6 on a failed pseudo-terminal open. -/
theorem c6_setup_failure_cleanup_witness :
    ∃ rc tr, androidForkExecvp ⟨0, false, true, true, true⟩ false true false []
        = some (rc, tr, none) ∧
      (((0 : Nat) ≠ 0 ∧ rc = ((0 : Nat) : Int)) ∨ rc = -1) ∧
      Ev.log Tag.child ∉ tr ∧
      (Ev.openMaster ∈ tr → Ev.closeMaster ∈ tr) ∧
      (Ev.openSlave ∈ tr → Ev.closeSlave ∈ tr) :=
  c6_setup_failure_cleanup ⟨0, false, true, true, true⟩ false true false []
    (by decide)

/-- Counterexample to C6 as stated: when the lock acquisition fails
with error code 35, the function returns 35 — a positive value, not a
negative result. -/
theorem c6_counterexample :
    androidForkExecvp ⟨35, true, true, true, true⟩ false true false []
      = some (35, [Ev.log Tag.wrapper], none) ∧
    ¬ ((35 : Int) < 0) := by
  refine ⟨by decide, by decide⟩

end Logwrap
